import Mathlib

/-!
# go-hashmap: a fixed-capacity string-keyed table with linear probing

Shallow embedding of `hashmap/hashmap.go`.

* A Go `string` is a finite sequence of bytes: `Key := List (Fin 256)`.
* A Go `interface{}` value is either `nil` or a boxed value: `Option α`, with
  `none` standing for `nil`.
* `uint64` arithmetic is arithmetic on `Nat` wrapped explicitly with `% 2^64`.
* The `size` field is a Go `int`; it is modelled by `Int` (it is only ever
  incremented and decremented by one and is never used to index or to branch).
* A pointer `&h.entries[i]` is modelled by the index `i`; the pair `(nil, -1)`
  returned by `findEntryOrEmptySlot` is `none`.
* Runtime panics (division by zero, index out of range, `make` with a negative
  length) are explicit `Fault`s in `Except`.
* The two random draws of `New` are explicit arguments.
* The `for h.entries[bucketIndex].isFilled` loop of `Delete` has no syntactic
  bound; it is modelled with a fuel argument that counts loop iterations, and
  the result `none` means that the fuel ran out.
-/

namespace GoHashmap

/-- Go runtime panics that the code can raise. -/
inductive Fault where
  | divideByZero
  | indexOutOfRange
  | negativeLen
  deriving DecidableEq, Repr

/-- A Go string, as its sequence of bytes. -/
abbrev Key := List (Fin 256)

/-- Truncation to the range of `uint64`. -/
def u64 (x : Nat) : Nat := x % 2 ^ 64

/-- The `entry` struct. -/
structure entry (α : Type) where
  isFilled : Bool
  key : Key
  value : Option α
  deriving DecidableEq, Repr

/-- The `HashMap` struct. -/
structure HashMap (α : Type) where
  entries : List (entry α)
  size : Int
  hashA : Nat
  hashB : Nat
  hashP : Nat
  deriving DecidableEq, Repr

variable {α : Type}

/-- The value `entry{isFilled: false, key: "", value: nil}`, which is also the zero value
that `make` fills a fresh slice with. -/
def emptyEntry : entry α := { isFilled := false, key := [], value := none }

/-- The constant stored in `hashP` by `New`. -/
def primeP : Nat := 5112733757

/-- `New(size)`; `drawA` is the result of `rand.Int63n(int64(h.hashP)-1)` and `drawB` the
result of `rand.Int63n(int64(h.hashP))`. -/
def New (size : Int) (drawA drawB : Nat) : Except Fault (HashMap α) :=
  if size < 0 then .error .negativeLen
  else .ok
    { entries := List.replicate size.toNat emptyEntry
      size := 0
      hashP := primeP
      hashA := u64 (drawA + 1)
      hashB := u64 drawB }

/-- `Capacity()`: `len(h.entries)`. -/
def HashMap.Capacity (h : HashMap α) : Nat := h.entries.length

/-- `Size()`. -/
def HashMap.Size (h : HashMap α) : Int := h.size

/-- `Load()`: the source computes `float64(h.Size()) / float64(h.Capacity())`; this is that
quotient taken as an exact rational number. -/
def HashMap.Load (h : HashMap α) : ℚ := (h.Size : ℚ) / (h.Capacity : ℚ)

/-- The fold loop of `hash`: `sum = (sum*256 + uint64(char)) % h.hashP` over the bytes. -/
def hashFold (hashP : Nat) (input : Key) : Nat :=
  input.foldl (fun sum char => u64 (u64 (sum * 256) + char.val) % hashP) 0

/-- The bucket index computed by `hash` when no division by zero occurs. -/
def hashIndex (h : HashMap α) (input : Key) : Nat :=
  (u64 (h.hashB + u64 (hashFold h.hashP input * h.hashA)) % h.hashP) % h.Capacity

/-- `hash(input)`. Both `% h.hashP` and `% uint64(h.Capacity())` panic on a zero divisor. -/
def HashMap.hash (h : HashMap α) (input : Key) : Except Fault Nat :=
  if h.hashP = 0 then .error .divideByZero
  else if h.Capacity = 0 then .error .divideByZero
  else .ok (hashIndex h input)

/-- The `for i := 0; i < h.Capacity(); i++` loop of `findEntryOrEmptySlot`, with `remaining`
iterations left and the current `bucketIndex`. -/
def findLoop (h : HashMap α) (key : Key) : Nat → Nat → Except Fault (Option Nat)
  | 0, _ => .ok none
  | remaining + 1, bucketIndex =>
    match h.entries[bucketIndex]? with
    | none => .error .indexOutOfRange
    | some e =>
      if e.isFilled then
        if e.key = key then .ok (some bucketIndex)
        else findLoop h key remaining
          (if bucketIndex + 1 = h.Capacity then 0 else bucketIndex + 1)
      else .ok (some bucketIndex)

/-- `findEntryOrEmptySlot(key)`: `some i` is the pair `(&h.entries[i], i)`, `none` is
`(nil, -1)`. -/
def HashMap.findEntryOrEmptySlot (h : HashMap α) (key : Key) : Except Fault (Option Nat) :=
  match h.hash key with
  | .error f => .error f
  | .ok bucketIndex => findLoop h key h.Capacity bucketIndex

/-- `Set(key, value)`: the table after the call and the returned boolean. -/
def HashMap.Set (h : HashMap α) (key : Key) (value : Option α) :
    Except Fault (HashMap α × Bool) :=
  match h.findEntryOrEmptySlot key with
  | .error f => .error f
  | .ok none => .ok (h, false)
  | .ok (some i) =>
    match h.entries[i]? with
    | none => .error .indexOutOfRange
    | some bucket =>
      if bucket.isFilled then
        .ok ({ h with entries := h.entries.set i { bucket with value := value } }, true)
      else
        .ok ({ h with
                entries := h.entries.set i { isFilled := true, key := key, value := value }
                size := h.size + 1 }, true)

/-- `Get(key)`; `none` is `nil`. -/
def HashMap.Get (h : HashMap α) (key : Key) : Except Fault (Option α) :=
  match h.findEntryOrEmptySlot key with
  | .error f => .error f
  | .ok none => .ok none
  | .ok (some i) =>
    match h.entries[i]? with
    | none => .error .indexOutOfRange
    | some bucket => if !bucket.isFilled then .ok none else .ok bucket.value

/-- The loop `for h.entries[bucketIndex].isFilled { ... }` of `Delete`. `fuel` is the number
of iterations the loop may still execute; `none` means the loop wanted to execute one more. -/
def rehashLoop : Nat → HashMap α → Nat → Option (Except Fault (HashMap α))
  | fuel, h, bucketIndex =>
    match h.entries[bucketIndex]? with
    | none => some (.error .indexOutOfRange)
    | some e =>
      if e.isFilled then
        match fuel with
        | 0 => none
        | fuel + 1 =>
          let h1 : HashMap α :=
            { h with entries := h.entries.set bucketIndex emptyEntry, size := h.size - 1 }
          match h1.Set e.key e.value with
          | .error f => some (.error f)
          | .ok (h2, _) =>
            if h2.Capacity = 0 then some (.error .divideByZero)
            else rehashLoop fuel h2 ((bucketIndex + 1) % h2.Capacity)
      else some (.ok h)

/-- `Delete(key)`: the table after the call and the returned value (`none` is `nil`). -/
def HashMap.Delete (fuel : Nat) (h : HashMap α) (key : Key) :
    Option (Except Fault (HashMap α × Option α)) :=
  match h.findEntryOrEmptySlot key with
  | .error f => some (.error f)
  | .ok none => some (.ok (h, none))
  | .ok (some i) =>
    match h.entries[i]? with
    | none => some (.error .indexOutOfRange)
    | some bucket =>
      if !bucket.isFilled then some (.ok (h, none))
      else
        let h1 : HashMap α :=
          { h with entries := h.entries.set i emptyEntry, size := h.size - 1 }
        if h1.Capacity = 0 then some (.error .divideByZero)
        else
          match rehashLoop fuel h1 ((i + 1) % h1.Capacity) with
          | none => none
          | some (.error f) => some (.error f)
          | some (.ok h2) => some (.ok (h2, bucket.value))

/-! ## Cyclic positions and slot predicates -/

/-- Number of forward steps, wrapping around at `n`, that lead from index `a` to index `b`. -/
def cdist (n a b : Nat) : Nat := if a ≤ b then b - a else b + n - a

/-- The slot at index `p` exists and is occupied. -/
def FilledAt (es : List (entry α)) (p : Nat) : Prop :=
  ∃ e, es[p]? = some e ∧ e.isFilled = true

/-- The slot at index `p` exists and is empty. -/
def FreeAt (es : List (entry α)) (p : Nat) : Prop :=
  ∃ e, es[p]? = some e ∧ e.isFilled = false

/-- The slot at index `p` exists, is occupied and holds key `k`. -/
def KeyAt (es : List (entry α)) (p : Nat) (k : Key) : Prop :=
  ∃ e, es[p]? = some e ∧ e.isFilled = true ∧ e.key = k

/-- The slot at index `p` is occupied and holds key `k` with value `v`. -/
def Holds (es : List (entry α)) (p : Nat) (k : Key) (v : Option α) : Prop :=
  es[p]? = some { isFilled := true, key := k, value := v }

/-- Number of occupied slots. -/
def occupied (es : List (entry α)) : Nat := es.countP (fun e => e.isFilled)

/-! ## Well-formed tables, reachable tables and the loop invariant of the repair walk -/

/-- The table has at least one slot and a nonzero modulus, so that `hash` does not panic. -/
def Params (h : HashMap α) : Prop := 0 < h.entries.length ∧ h.hashP ≠ 0

/-- Two tables have the same capacity and the same hash parameters. -/
def SameHash (h h' : HashMap α) : Prop :=
  h'.hashA = h.hashA ∧ h'.hashB = h.hashB ∧ h'.hashP = h.hashP ∧
    h'.entries.length = h.entries.length

/-- Every slot strictly before `p` on the forward path from the bucket of `k` is occupied. -/
def PathFilled (h : HashMap α) (p : Nat) (k : Key) : Prop :=
  ∀ x, x < h.entries.length →
    cdist h.entries.length (hashIndex h k) x < cdist h.entries.length (hashIndex h k) p →
      FilledAt h.entries x

/-- No two occupied slots hold the same key. -/
def NoDupKeys (es : List (entry α)) : Prop :=
  ∀ p q k, KeyAt es p k → KeyAt es q k → p = q

/-- Well-formed table: `size` counts the occupied slots, keys are not repeated and no empty
slot lies between the bucket of a stored key and the slot that stores it. -/
structure WF (h : HashMap α) : Prop where
  params : Params h
  size_eq : h.size = (occupied h.entries : Int)
  nodup : NoDupKeys h.entries
  path : ∀ p k, KeyAt h.entries p k → PathFilled h p k

/-- Tables reachable from `New(c)`, `c ≥ 1`, with draws in the ranges of `rand.Int63n`,
by calls of `Set` and `Delete` that return. -/
inductive Reachable : HashMap α → Prop where
  | new (c : Int) (drawA drawB : Nat) (h : HashMap α) (hc : 1 ≤ c)
      (hA : drawA < primeP - 1) (hB : drawB < primeP) (hnew : New c drawA drawB = .ok h) :
      Reachable h
  | set (h h' : HashMap α) (k : Key) (v : Option α) (r : Bool) (hr : Reachable h)
      (hset : h.Set k v = .ok (h', r)) : Reachable h'
  | delete (h h' : HashMap α) (fuel : Nat) (k : Key) (r : Option α) (hr : Reachable h)
      (hdel : h.Delete fuel k = some (.ok (h', r))) : Reachable h'

/-- Steps from the bucket of the key stored in slot `x` to `x`; zero for an empty slot. -/
def disp (h : HashMap α) (x : Nat) : Nat :=
  match h.entries[x]? with
  | some e => if e.isFilled then cdist h.entries.length (hashIndex h e.key) x else 0
  | none => 0

/-- Total displacement of the stored keys; the repair walk never increases it. -/
def potential (h : HashMap α) : Nat := ∑ x ∈ Finset.range h.entries.length, disp h x

/-- Invariant of the repair walk of `Delete` when the walker stands at index `j`: the table
is well formed except that a stored key may be cut off from its bucket by an empty slot, and
every such key lies in the run of occupied slots that starts at the walker. -/
structure LoopInv (h : HashMap α) (j : Nat) : Prop where
  params : Params h
  walker : j < h.entries.length
  hole : ∃ x, FreeAt h.entries x
  size_eq : h.size = (occupied h.entries : Int)
  nodup : NoDupKeys h.entries
  path : ∀ p k, KeyAt h.entries p k →
    PathFilled h p k ∨
      ∀ x, x < h.entries.length →
        cdist h.entries.length j x ≤ cdist h.entries.length j p → FilledAt h.entries x

/-- What the repair walk achieves from a state satisfying the loop invariant. -/
def WalkResult (h : HashMap α) (j : Nat) : Prop :=
  ∃ N h', (∀ fuel, N ≤ fuel → rehashLoop fuel h j = some (.ok h')) ∧ WF h' ∧ SameHash h h' ∧
    h'.size = h.size ∧
    ∀ k v, (∃ p, Holds h'.entries p k v) ↔ (∃ p, Holds h.entries p k v)

/-! ## Concrete tables

Capacity 3 with draws `0, 0` (so `hashA = 1`, `hashB = 0`); the one-byte keys `"a"`, `"d"`,
`"g"` and `"j"` all hash to bucket 1. -/

/-- The key `"a"`. -/
def keyA : Key := [97]

/-- The key `"d"`. -/
def keyD : Key := [100]

/-- The key `"g"`. -/
def keyG : Key := [103]

/-- The key `"j"`. -/
def keyJ : Key := [106]

/-- The table `New(3)` with draws `0, 0`. -/
def table0 : HashMap Nat :=
  { entries := [emptyEntry, emptyEntry, emptyEntry], size := 0, hashA := 1, hashB := 0,
    hashP := primeP }

/-- After `Set("a", 3)`. -/
def table1 : HashMap Nat :=
  { table0 with entries := [emptyEntry, ⟨true, keyA, some 3⟩, emptyEntry], size := 1 }

/-- After `Set("d", 4)`. -/
def table2 : HashMap Nat :=
  { table0 with entries := [emptyEntry, ⟨true, keyA, some 3⟩, ⟨true, keyD, some 4⟩], size := 2 }

/-- After `Set("g", 5)`: the table is full, the three keys form one probe chain. -/
def table3 : HashMap Nat :=
  { table0 with
    entries := [⟨true, keyG, some 5⟩, ⟨true, keyA, some 3⟩, ⟨true, keyD, some 4⟩], size := 3 }

/-! ## Calls, results and the reference map of the refinement statement -/

/-- One call of the public interface. -/
inductive Op (α : Type) where
  | set (key : Key) (value : Option α)
  | get (key : Key)
  | delete (key : Key)
  | size

/-- What one call returns. -/
inductive Res (α : Type) where
  | bool (b : Bool)
  | value (v : Option α)
  | int (n : Int)

/-- One call on the table: the table afterwards and the returned result. -/
def HashMap.call (fuel : Nat) (h : HashMap α) :
    Op α → Option (Except Fault (HashMap α × Res α))
  | .set k v => some ((h.Set k v).map fun p => (p.1, Res.bool p.2))
  | .get k => some ((h.Get k).map fun v => (h, Res.value v))
  | .delete k => (h.Delete fuel k).map (Except.map fun p => (p.1, Res.value p.2))
  | .size => some (.ok (h, Res.int h.Size))

/-- A sequence of calls on the table: the list of returned results. -/
def HashMap.run (fuel : Nat) : HashMap α → List (Op α) → Option (Except Fault (List (Res α)))
  | _, [] => some (.ok [])
  | h, op :: ops =>
    match h.call fuel op with
    | none => none
    | some (.error f) => some (.error f)
    | some (.ok (h', r)) =>
      match HashMap.run fuel h' ops with
      | none => none
      | some (.error f) => some (.error f)
      | some (.ok rs) => some (.ok (r :: rs))

/-- The reference of the refinement statement, written from its words: a finite map from
string keys to values, bounded at `bound` entries. -/
structure RefMap (α : Type) where
  bound : Nat
  keys : Finset Key
  val : Key → Option α

/-- The empty reference map with bound `c`. -/
def RefMap.empty (c : Nat) : RefMap α := { bound := c, keys := ∅, val := fun _ => none }

/-- Reference `Size`: the number of keys. -/
def RefMap.Size (m : RefMap α) : Int := m.keys.card

/-- Reference `Get`: looks the key up. -/
def RefMap.Get (m : RefMap α) (k : Key) : Option α := if k ∈ m.keys then m.val k else none

/-- Reference `Set`: inserts or overwrites and returns true, unless the key is new and the
map already has `bound` keys; then it returns false and changes nothing. -/
def RefMap.Set (m : RefMap α) (k : Key) (v : Option α) : RefMap α × Bool :=
  if k ∉ m.keys ∧ m.keys.card = m.bound then (m, false)
  else ({ m with keys := insert k m.keys, val := Function.update m.val k v }, true)

/-- Reference `Delete`: removes the key and returns its value, nil if it is absent. -/
def RefMap.Delete (m : RefMap α) (k : Key) : RefMap α × Option α :=
  ({ m with keys := m.keys.erase k }, m.Get k)

/-- One call on the reference map. -/
def RefMap.call (m : RefMap α) : Op α → RefMap α × Res α
  | .set k v => ((m.Set k v).1, Res.bool (m.Set k v).2)
  | .get k => (m, Res.value (m.Get k))
  | .delete k => ((m.Delete k).1, Res.value (m.Delete k).2)
  | .size => (m, Res.int m.Size)

/-- A sequence of calls on the reference map: the list of returned results. -/
def RefMap.run : RefMap α → List (Op α) → List (Res α)
  | _, [] => []
  | m, op :: ops => (m.call op).2 :: RefMap.run (m.call op).1 ops

/-- The table `h` represents the reference map `m`. -/
structure Abs (h : HashMap α) (m : RefMap α) : Prop where
  wf : WF h
  bound_eq : m.bound = h.entries.length
  size_eq : h.size = (m.keys.card : Int)
  contents : ∀ k v, (∃ p, Holds h.entries p k v) ↔ (k ∈ m.keys ∧ m.val k = v)

/-- The call sequence of `TestSetFullHashmap`, on the one-byte keys, followed by `Size`. -/
def fullTableCalls : List (Op Nat) :=
  [.set keyA (some 3), .set keyD (some 4), .set keyG (some 5), .set keyJ (some 6),
   .set keyG (some 6), .delete keyG, .set keyJ (some 6), .get keyA, .get keyD, .get keyJ,
   .size]

deriving instance DecidableEq for Except

deriving instance DecidableEq for Res

/-! ## Definitions for the numeric facts, the probe-chain invariant and the iteration bound -/

/-- Trial division by the odd numbers `3, 5, ..., 2 * k + 1`: true when none divides `n`. -/
def oddTrial (n : Nat) : Nat → Bool
  | 0 => true
  | k + 1 => n % (2 * k + 3) != 0 && oddTrial n k

/-- The bytes of a key read as a big-endian base-256 numeral. -/
def bigEndian (input : Key) : Nat := input.foldl (fun acc char => acc * 256 + char.val) 0

/-- The index `((hashB + x * hashA) mod hashP) mod capacity` evaluated over the unbounded
naturals, where `x` is the folded value of the key. -/
def exactIndex (h : HashMap α) (input : Key) : Nat :=
  ((h.hashB + hashFold h.hashP input * h.hashA) % h.hashP) % h.Capacity

/-- The four-byte key `"\xff\xff\xff\xff"`. -/
def keyFF : Key := [255, 255, 255, 255]

/-- The table `New(3)` with draws `5112733755, 0`, that is `hashA = P - 1`, `hashB = 0`. -/
def tableWrap : HashMap Nat :=
  { entries := [emptyEntry, emptyEntry, emptyEntry], size := 0, hashA := 5112733756,
    hashB := 0, hashP := primeP }

/-- The table `New(0)` with draws `0, 0`. -/
def tableZero : HashMap Nat :=
  { entries := [], size := 0, hashA := 1, hashB := 0, hashP := primeP }

/-- The statements `*bucket = emptyEntry; h.size--` of `Delete`, on slot `i`. -/
def HashMap.clearSlot (h : HashMap α) (i : Nat) : HashMap α :=
  { h with entries := h.entries.set i emptyEntry, size := h.size - 1 }

/-- The probe-chain predicate: for every occupied slot `p` holding key `k`, every slot on
the cyclic forward path from `hash(k)` up to and including `p` is occupied. -/
def ChainFilled (h : HashMap α) : Prop :=
  ∀ p k, KeyAt h.entries p k → ∀ x, x < h.Capacity →
    cdist h.Capacity (hashIndex h k) x ≤ cdist h.Capacity (hashIndex h k) p →
      FilledAt h.entries x

/-- The states `(table, bucketIndex)` in which the repair walk of `Delete` stands at its loop
head when it is started in `(h0, j0)`; one step is one execution of the loop body. -/
inductive WalkReaches (h0 : HashMap α) (j0 : Nat) : HashMap α → Nat → Prop where
  | start : WalkReaches h0 j0 h0 j0
  | step (h h2 : HashMap α) (j : Nat) (e : entry α) (r : Bool)
      (hw : WalkReaches h0 j0 h j) (he : h.entries[j]? = some e) (hf : e.isFilled = true)
      (hset : (h.clearSlot j).Set e.key e.value = .ok (h2, r)) :
      WalkReaches h0 j0 h2 ((j + 1) % h2.Capacity)

/-- A seam of the table: a slot `z` that lies on the probe path of no key stored in another
slot. An empty slot of a well-formed table is a seam, and so is the slot filled last. -/
def Seam (h : HashMap α) : Prop :=
  ∃ z, z < h.entries.length ∧ ∀ p k, KeyAt h.entries p k → p ≠ z →
    ¬ (cdist h.entries.length (hashIndex h k) z < cdist h.entries.length (hashIndex h k) p)

/-- Invariant of the first lap of the repair walk on a table that was full before the
deletion of slot `i`, after `d - 1` iterations, with seam `z` and current empty slot `g`:
`g` is the only empty slot, it lies behind the walker and not after the seam (seen from
`i`); the keys ahead of the walker still avoid the seam; and the probe path of a key behind
the walker avoids `g` and every slot from the walker to the seam, which are the slots that
can still become empty. -/
structure Lap1 (h : HashMap α) (i z d g : Nat) : Prop where
  hole : FreeAt h.entries g
  only : ∀ x, x < h.entries.length → x ≠ g → FilledAt h.entries x
  gpos : cdist h.entries.length i g < d
  gseam : cdist h.entries.length i g ≤ cdist h.entries.length i z
  ahead : ∀ p k, KeyAt h.entries p k → d ≤ cdist h.entries.length i p → p ≠ z →
    ¬ (cdist h.entries.length (hashIndex h k) z < cdist h.entries.length (hashIndex h k) p)
  behind : ∀ p k, KeyAt h.entries p k → cdist h.entries.length i p < d →
    ∀ x, x < h.entries.length →
      cdist h.entries.length (hashIndex h k) x < cdist h.entries.length (hashIndex h k) p →
        x ≠ g ∧ ¬ (d ≤ cdist h.entries.length i x ∧
          cdist h.entries.length i x ≤ cdist h.entries.length i z)

/-! # Theorems -/

/-! ## Cyclic positions and slot predicates -/

theorem slot_exists {es : List (entry α)} {p : Nat} (hp : p < es.length) :
    ∃ e, es[p]? = some e :=
  ⟨es[p], List.getElem?_eq_getElem hp⟩

theorem filled_or_free {es : List (entry α)} {p : Nat} (hp : p < es.length) :
    FilledAt es p ∨ FreeAt es p := by
  obtain ⟨e, he⟩ := slot_exists hp
  cases hf : e.isFilled
  · exact Or.inr ⟨e, he, hf⟩
  · exact Or.inl ⟨e, he, hf⟩

theorem not_filled_of_free {es : List (entry α)} {p : Nat} (h : FreeAt es p) :
    ¬ FilledAt es p := by
  rintro ⟨e, he, hf⟩
  obtain ⟨e', he', hf'⟩ := h
  rw [he] at he'
  cases he'
  rw [hf] at hf'
  cases hf'

theorem KeyAt.filled {es : List (entry α)} {p : Nat} {k : Key} (h : KeyAt es p k) :
    FilledAt es p := by
  obtain ⟨e, he, hf, _⟩ := h
  exact ⟨e, he, hf⟩

theorem FilledAt.lt {es : List (entry α)} {p : Nat} (h : FilledAt es p) : p < es.length := by
  obtain ⟨e, he, _⟩ := h
  exact (List.getElem?_eq_some.mp he).1

theorem KeyAt.unique {es : List (entry α)} {p : Nat} {k k' : Key} (h : KeyAt es p k)
    (h' : KeyAt es p k') : k = k' := by
  obtain ⟨e, he, _, hk⟩ := h
  obtain ⟨e', he', _, hk'⟩ := h'
  rw [he] at he'
  cases he'
  rw [← hk, ← hk']

theorem Holds.keyAt {es : List (entry α)} {p : Nat} {k : Key} {v : Option α}
    (h : Holds es p k v) : KeyAt es p k :=
  ⟨_, h, rfl, rfl⟩

theorem KeyAt.holds {es : List (entry α)} {p : Nat} {k : Key} (h : KeyAt es p k) :
    ∃ v, Holds es p k v := by
  obtain ⟨⟨f, k', v⟩, he, hf, hk⟩ := h
  simp only at hf hk
  subst hf hk
  exact ⟨v, he⟩

/-! ## The probe loop -/

/-- What the probe loop returns from a start index inside the table: either the first slot
on the forward path that is empty or holds the key, all slots before it being occupied by
other keys, or nothing when all `r` probed slots are occupied by other keys. -/
theorem findLoop_spec (h : HashMap α) (key : Key) :
    ∀ r b, b < h.entries.length → r ≤ h.entries.length →
      (∃ q, findLoop h key r b = .ok (some q) ∧ q < h.entries.length ∧
          cdist h.entries.length b q < r ∧
          (∀ x, x < h.entries.length →
            cdist h.entries.length b x < cdist h.entries.length b q →
              FilledAt h.entries x ∧ ¬ KeyAt h.entries x key) ∧
          (FreeAt h.entries q ∨ KeyAt h.entries q key)) ∨
      (findLoop h key r b = .ok none ∧
          ∀ x, x < h.entries.length → cdist h.entries.length b x < r →
            FilledAt h.entries x ∧ ¬ KeyAt h.entries x key) := by
  intro r
  induction r with
  | zero =>
    intro b _ _
    right
    exact ⟨rfl, fun x _ hx => absurd hx (Nat.not_lt_zero _)⟩
  | succ r ih =>
    intro b hb hr
    obtain ⟨e, he⟩ := slot_exists hb
    unfold findLoop
    rw [he]
    simp only
    by_cases hf : e.isFilled = true
    · by_cases hk : e.key = key
      · left
        refine ⟨b, by simp [hf, hk], hb, by simp [cdist], ?_, Or.inr ⟨e, he, hf, hk⟩⟩
        intro x _ hx
        simp [cdist] at hx
      · have hother : FilledAt h.entries b ∧ ¬ KeyAt h.entries b key := by
          refine ⟨⟨e, he, hf⟩, ?_⟩
          rintro ⟨e', he', _, hk'⟩
          rw [he] at he'
          cases he'
          exact hk hk'
        have hb' : (if b + 1 = h.Capacity then 0 else b + 1) < h.entries.length := by
          unfold HashMap.Capacity
          split_ifs <;> omega
        rcases ih _ hb' (by omega) with ⟨q, hq, hqlt, hd, hpath, hend⟩ | ⟨hq, hall⟩
        · left
          refine ⟨q, by simp [hf, hk, hq], hqlt, ?_, ?_, hend⟩
          · unfold HashMap.Capacity at hd
            unfold cdist at hd ⊢
            split_ifs at hd ⊢ <;> omega
          · intro x hx hxq
            by_cases hxb : x = b
            · subst hxb
              exact hother
            · apply hpath x hx
              unfold HashMap.Capacity at hd ⊢
              unfold cdist at hd hxq ⊢
              split_ifs at hd hxq ⊢ <;> omega
        · right
          refine ⟨by simp [hf, hk, hq], ?_⟩
          intro x hx hxr
          by_cases hxb : x = b
          · subst hxb
            exact hother
          · apply hall x hx
            unfold HashMap.Capacity
            unfold cdist at hxr ⊢
            split_ifs at hxr ⊢ <;> omega
    · left
      have hf' : e.isFilled = false := by simpa using hf
      refine ⟨b, by simp [hf'], hb, by simp [cdist], ?_, Or.inl ⟨e, he, hf'⟩⟩
      intro x _ hx
      simp [cdist] at hx

theorem SameHash.refl (h : HashMap α) : SameHash h h := ⟨rfl, rfl, rfl, rfl⟩

theorem SameHash.trans {h1 h2 h3 : HashMap α} (a : SameHash h1 h2) (b : SameHash h2 h3) :
    SameHash h1 h3 := by
  obtain ⟨a1, a2, a3, a4⟩ := a
  obtain ⟨b1, b2, b3, b4⟩ := b
  exact ⟨b1.trans a1, b2.trans a2, b3.trans a3, b4.trans a4⟩

theorem SameHash.hashIndex {h h' : HashMap α} (s : SameHash h h') (k : Key) :
    hashIndex h' k = hashIndex h k := by
  obtain ⟨a1, a2, a3, a4⟩ := s
  simp only [GoHashmap.hashIndex, HashMap.Capacity, a1, a2, a3, a4]

theorem SameHash.params {h h' : HashMap α} (s : SameHash h h') (p : Params h) : Params h' := by
  obtain ⟨_, _, a3, a4⟩ := s
  exact ⟨by rw [a4]; exact p.1, by rw [a3]; exact p.2⟩

theorem hashIndex_lt {h : HashMap α} (hp : Params h) (k : Key) :
    hashIndex h k < h.entries.length :=
  Nat.mod_lt _ hp.1

theorem hash_ok {h : HashMap α} (hp : Params h) (k : Key) :
    h.hash k = .ok (hashIndex h k) := by
  have h1 : h.entries.length ≠ 0 := Nat.pos_iff_ne_zero.mp hp.1
  simp [HashMap.hash, HashMap.Capacity, hp.2, h1]

theorem cdist_lt {n a b : Nat} (ha : a < n) (hb : b < n) : cdist n a b < n := by
  unfold cdist
  split_ifs <;> omega

theorem cdist_inj {n a b c : Nat} (ha : a < n) (hb : b < n) (hc : c < n)
    (h : cdist n a b = cdist n a c) : b = c := by
  unfold cdist at h
  split_ifs at h <;> omega

/-- The outcome of the probe search on a table with `Params`. -/
theorem find_cases {h : HashMap α} (hp : Params h) (key : Key) :
    (∃ q, h.findEntryOrEmptySlot key = .ok (some q) ∧ q < h.entries.length ∧
        (∀ x, x < h.entries.length →
          cdist h.entries.length (hashIndex h key) x <
              cdist h.entries.length (hashIndex h key) q →
            FilledAt h.entries x ∧ ¬ KeyAt h.entries x key) ∧
        (FreeAt h.entries q ∨ KeyAt h.entries q key)) ∨
    (h.findEntryOrEmptySlot key = .ok none ∧
        ∀ x, x < h.entries.length → FilledAt h.entries x ∧ ¬ KeyAt h.entries x key) := by
  have hs := hashIndex_lt hp key
  have hfind : h.findEntryOrEmptySlot key
      = findLoop h key h.entries.length (hashIndex h key) := by
    simp [HashMap.findEntryOrEmptySlot, hash_ok hp, HashMap.Capacity]
  rw [hfind]
  rcases findLoop_spec h key h.entries.length (hashIndex h key) hs (Nat.le_refl _) with
    ⟨q, hq, hqlt, _, hpath, hend⟩ | ⟨hq, hall⟩
  · exact Or.inl ⟨q, hq, hqlt, hpath, hend⟩
  · exact Or.inr ⟨hq, fun x hx => hall x hx (cdist_lt hs hx)⟩

/-- The probe search is determined by the slot it has to stop at. -/
theorem find_eq_of {h : HashMap α} (hp : Params h) (key : Key) (q : Nat)
    (hq : q < h.entries.length)
    (hpath : ∀ x, x < h.entries.length →
      cdist h.entries.length (hashIndex h key) x <
          cdist h.entries.length (hashIndex h key) q →
        FilledAt h.entries x ∧ ¬ KeyAt h.entries x key)
    (hend : FreeAt h.entries q ∨ KeyAt h.entries q key) :
    h.findEntryOrEmptySlot key = .ok (some q) := by
  have hs := hashIndex_lt hp key
  have stop : ∀ y, (FreeAt h.entries y ∨ KeyAt h.entries y key) →
      ¬ (FilledAt h.entries y ∧ ¬ KeyAt h.entries y key) := by
    rintro y (hy | hy) ⟨h1, h2⟩
    · exact not_filled_of_free hy h1
    · exact h2 hy
  rcases find_cases hp key with ⟨q', hq', hqlt', hpath', hend'⟩ | ⟨_, hall⟩
  · have : q' = q := by
      rcases Nat.lt_trichotomy (cdist h.entries.length (hashIndex h key) q')
          (cdist h.entries.length (hashIndex h key) q) with hlt | heq | hgt
      · exact absurd (hpath q' hqlt' hlt) (stop q' hend')
      · exact cdist_inj hs hqlt' hq heq
      · exact absurd (hpath' q hq hgt) (stop q hend)
    rw [hq', this]
  · exact absurd (hall q hq) (stop q hend)

/-! ## Writing one slot -/

theorem filledAt_set {es : List (entry α)} {i x : Nat} {a : entry α} :
    FilledAt (es.set i a) x ↔
      (x = i ∧ i < es.length ∧ a.isFilled = true) ∨ (x ≠ i ∧ FilledAt es x) := by
  unfold FilledAt
  rw [List.getElem?_set]
  by_cases hx : i = x
  · subst hx
    by_cases hi : i < es.length
    · simp [hi]
    · simp [hi]
  · have hx' : x ≠ i := fun h => hx h.symm
    simp [hx, hx']

theorem freeAt_set {es : List (entry α)} {i x : Nat} {a : entry α} :
    FreeAt (es.set i a) x ↔
      (x = i ∧ i < es.length ∧ a.isFilled = false) ∨ (x ≠ i ∧ FreeAt es x) := by
  unfold FreeAt
  rw [List.getElem?_set]
  by_cases hx : i = x
  · subst hx
    by_cases hi : i < es.length
    · simp [hi]
    · simp [hi]
  · have hx' : x ≠ i := fun h => hx h.symm
    simp [hx, hx']

theorem keyAt_set {es : List (entry α)} {i x : Nat} {a : entry α} {k : Key} :
    KeyAt (es.set i a) x k ↔
      (x = i ∧ i < es.length ∧ a.isFilled = true ∧ a.key = k) ∨ (x ≠ i ∧ KeyAt es x k) := by
  unfold KeyAt
  rw [List.getElem?_set]
  by_cases hx : i = x
  · subst hx
    by_cases hi : i < es.length
    · simp [hi]
    · simp [hi]
  · have hx' : x ≠ i := fun h => hx h.symm
    simp [hx, hx']

theorem holds_set {es : List (entry α)} {i x : Nat} {a : entry α} {k : Key} {v : Option α} :
    Holds (es.set i a) x k v ↔
      (x = i ∧ i < es.length ∧ a = { isFilled := true, key := k, value := v }) ∨
        (x ≠ i ∧ Holds es x k v) := by
  unfold Holds
  rw [List.getElem?_set]
  by_cases hx : i = x
  · subst hx
    by_cases hi : i < es.length
    · simp [hi]
    · simp [hi]
  · have hx' : x ≠ i := fun h => hx h.symm
    simp [hx, hx']

theorem countP_set_add {β : Type} (p : β → Bool) :
    ∀ (l : List β) (i : Nat) (a b : β), l[i]? = some a →
      List.countP p (l.set i b) + (if p a then 1 else 0)
        = List.countP p l + (if p b then 1 else 0) := by
  intro l
  induction l with
  | nil => intro i a b h; simp at h
  | cons c t ih =>
    intro i a b h
    cases i with
    | zero =>
      simp only [List.getElem?_cons_zero, Option.some.injEq] at h
      subst h
      simp only [List.set_cons_zero, List.countP_cons]
      omega
    | succ i =>
      simp only [List.getElem?_cons_succ] at h
      have := ih i a b h
      simp only [List.set_cons_succ, List.countP_cons]
      omega

theorem occupied_set {es : List (entry α)} {i : Nat} {a b : entry α} (h : es[i]? = some a) :
    occupied (es.set i b) + (if a.isFilled then 1 else 0)
      = occupied es + (if b.isFilled then 1 else 0) := by
  have := countP_set_add (fun e : entry α => e.isFilled) es i a b h
  simpa [occupied] using this

theorem occupied_le (es : List (entry α)) : occupied es ≤ es.length :=
  List.countP_le_length _

theorem occupied_eq_length_iff (es : List (entry α)) :
    occupied es = es.length ↔ ∀ x, x < es.length → FilledAt es x := by
  unfold occupied
  rw [List.countP_eq_length]
  constructor
  · intro h x hx
    exact ⟨es[x], List.getElem?_eq_getElem hx, h _ (List.getElem_mem hx)⟩
  · intro h a ha
    obtain ⟨x, hx, rfl⟩ := List.getElem_of_mem ha
    obtain ⟨e, he, hf⟩ := h x hx
    rw [List.getElem?_eq_getElem hx] at he
    cases he
    exact hf

/-! ## Well-formed tables -/

theorem Set_cases {h : HashMap α} (hp : Params h) (k : Key) (v : Option α) :
    (h.findEntryOrEmptySlot k = .ok none ∧
        (∀ x, x < h.entries.length → FilledAt h.entries x ∧ ¬ KeyAt h.entries x k) ∧
        h.Set k v = .ok (h, false)) ∨
    (∃ i, h.findEntryOrEmptySlot k = .ok (some i) ∧ FreeAt h.entries i ∧
        (∀ x, x < h.entries.length →
          cdist h.entries.length (hashIndex h k) x < cdist h.entries.length (hashIndex h k) i →
            FilledAt h.entries x ∧ ¬ KeyAt h.entries x k) ∧
        h.Set k v = .ok ({ h with
          entries := h.entries.set i { isFilled := true, key := k, value := v }
          size := h.size + 1 }, true)) ∨
    (∃ i e, h.findEntryOrEmptySlot k = .ok (some i) ∧ h.entries[i]? = some e ∧
        e.isFilled = true ∧ e.key = k ∧
        (∀ x, x < h.entries.length →
          cdist h.entries.length (hashIndex h k) x < cdist h.entries.length (hashIndex h k) i →
            FilledAt h.entries x ∧ ¬ KeyAt h.entries x k) ∧
        h.Set k v = .ok ({ h with entries := h.entries.set i { e with value := v } }, true)) := by
  rcases find_cases hp k with ⟨q, hq, _, hpath, hend⟩ | ⟨hq, hall⟩
  · rcases hend with ⟨e, he, hf⟩ | ⟨e, he, hf, hk⟩
    · right; left
      refine ⟨q, hq, ⟨e, he, hf⟩, hpath, ?_⟩
      simp [HashMap.Set, hq, he, hf]
    · right; right
      refine ⟨q, e, hq, he, hf, hk, hpath, ?_⟩
      simp [HashMap.Set, hq, he, hf]
  · left
    exact ⟨hq, hall, by simp [HashMap.Set, hq]⟩

/-- In a well-formed table the probe search finds every stored key at its slot. -/
theorem WF.find {h : HashMap α} (w : WF h) {p : Nat} {k : Key} (hk : KeyAt h.entries p k) :
    h.findEntryOrEmptySlot k = .ok (some p) := by
  apply find_eq_of w.params k p hk.filled.lt _ (Or.inr hk)
  intro x hx hlt
  refine ⟨w.path p k hk x hx hlt, fun hx' => ?_⟩
  have := w.nodup x p k hx' hk
  subst this
  exact Nat.lt_irrefl _ hlt

theorem WF_of_find {h : HashMap α} (hp : Params h) (hs : h.size = (occupied h.entries : Int))
    (hf : ∀ p k, KeyAt h.entries p k → h.findEntryOrEmptySlot k = .ok (some p)) : WF h := by
  refine ⟨hp, hs, ?_, ?_⟩
  · intro p q k hpk hqk
    have h1 := hf p k hpk
    rw [hf q k hqk] at h1
    simpa using h1.symm
  · intro p k hpk x hx hlt
    rcases find_cases hp k with ⟨q, hq, _, hpath, _⟩ | ⟨_, hall⟩
    · rw [hf p k hpk] at hq
      have : p = q := by simpa using hq
      subst this
      exact (hpath x hx hlt).1
    · exact (hall x hx).1

theorem New_eq {c : Int} {a b : Nat} {h : HashMap α} (hc : 0 ≤ c)
    (hnew : New c a b = .ok h) :
    h = { entries := List.replicate c.toNat emptyEntry, size := 0, hashP := primeP,
          hashA := u64 (a + 1), hashB := u64 b } := by
  unfold New at hnew
  rw [if_neg (by omega)] at hnew
  cases hnew
  rfl

theorem New_returns (c : Int) (hc : 0 ≤ c) (a b : Nat) :
    ∃ h : HashMap α, New c a b = .ok h := by
  unfold New
  rw [if_neg (by omega)]
  exact ⟨_, rfl⟩

theorem not_filledAt_replicate (n x : Nat) :
    ¬ FilledAt (List.replicate n (emptyEntry : entry α)) x := by
  rintro ⟨e, he, hf⟩
  rw [List.getElem?_replicate] at he
  split_ifs at he
  cases he
  simp [emptyEntry] at hf

theorem occupied_replicate (n : Nat) :
    occupied (List.replicate n (emptyEntry : entry α)) = 0 := by
  simp [occupied, List.countP_replicate, emptyEntry]

theorem WF_new {c : Int} {a b : Nat} {h : HashMap α} (hc : 1 ≤ c)
    (hnew : New c a b = .ok h) : WF h := by
  have := New_eq (by omega) hnew
  subst this
  refine ⟨⟨?_, ?_⟩, ?_, ?_, ?_⟩
  · simp only [List.length_replicate]
    omega
  · simp [primeP]
  · simp [occupied_replicate]
  · intro p q k hp _
    exact absurd hp.filled (not_filledAt_replicate _ _)
  · intro p k hp
    exact absurd hp.filled (not_filledAt_replicate _ _)

theorem Set_sameHash {h h' : HashMap α} {k : Key} {v : Option α} {r : Bool}
    (hset : h.Set k v = .ok (h', r)) : SameHash h h' := by
  unfold HashMap.Set at hset
  split at hset
  · cases hset
  · cases hset
    exact SameHash.refl _
  · split at hset
    · cases hset
    · split_ifs at hset
      · cases hset
        exact ⟨rfl, rfl, rfl, by simp⟩
      · cases hset
        exact ⟨rfl, rfl, rfl, by simp⟩

theorem WF_set {h h' : HashMap α} {k : Key} {v : Option α} {r : Bool} (w : WF h)
    (hset : h.Set k v = .ok (h', r)) : WF h' := by
  have hsame := Set_sameHash hset
  have hidx : ∀ k', hashIndex h' k' = hashIndex h k' := hsame.hashIndex
  rcases Set_cases w.params k v with ⟨_, _, hs⟩ | ⟨i, hfind, hfree, hpath, hs⟩ |
      ⟨i, e, hfind, he, hf, hk, hpath, hs⟩
  · rw [hs] at hset
    cases hset
    exact w
  · rw [hs] at hset
    cases hset
    obtain ⟨e, he, hf⟩ := hfree
    have hi : i < h.entries.length := (List.getElem?_eq_some.mp he).1
    have hnew : ∀ x, ¬ KeyAt h.entries x k := by
      intro x hx
      have := w.find hx
      rw [hfind] at this
      have : i = x := by simpa using this
      subst this
      exact not_filled_of_free ⟨e, he, hf⟩ hx.filled
    refine ⟨hsame.params w.params, ?_, ?_, ?_⟩
    · have := occupied_set (b := { isFilled := true, key := k, value := v }) he
      have h2 : occupied (h.entries.set i { isFilled := true, key := k, value := v })
          = occupied h.entries + 1 := by simpa [hf] using this
      show h.size + 1 = _
      rw [h2, w.size_eq]
      push_cast
      rfl
    · intro p q k' hp hq
      rw [keyAt_set] at hp hq
      rcases hp with ⟨hpi, _, _, hpk⟩ | ⟨hpi, hp⟩ <;>
        rcases hq with ⟨hqi, _, _, hqk⟩ | ⟨hqi, hq⟩
      · rw [hpi, hqi]
      · have hpk' : k = k' := hpk
        subst hpk'
        exact absurd hq (hnew _)
      · have hqk' : k = k' := hqk
        subst hqk'
        exact absurd hp (hnew _)
      · exact w.nodup p q k' hp hq
    · intro p k' hp x hx hlt
      simp only [List.length_set] at hx hlt
      rw [hidx] at hlt
      rw [filledAt_set]
      by_cases hxi : x = i
      · exact Or.inl ⟨hxi, hi, rfl⟩
      · right
        refine ⟨hxi, ?_⟩
        rw [keyAt_set] at hp
        rcases hp with ⟨hpi, _, _, hk'⟩ | ⟨_, hp⟩
        · have hk'' : k = k' := hk'
          subst hk'' hpi
          exact (hpath x hx hlt).1
        · exact w.path p k' hp x hx hlt
  · rw [hs] at hset
    cases hset
    have hi : i < h.entries.length := (List.getElem?_eq_some.mp he).1
    have hkey : ∀ x k', KeyAt (h.entries.set i { e with value := v }) x k' ↔
        KeyAt h.entries x k' := by
      intro x k'
      rw [keyAt_set]
      constructor
      · rintro (⟨rfl, _, hf', hk'⟩ | ⟨_, hx⟩)
        · exact ⟨e, he, hf, hk'⟩
        · exact hx
      · intro hx
        by_cases hxi : x = i
        · subst hxi
          obtain ⟨e', he', hf', hk'⟩ := hx
          rw [he] at he'
          cases he'
          exact Or.inl ⟨rfl, hi, hf', hk'⟩
        · exact Or.inr ⟨hxi, hx⟩
    refine ⟨hsame.params w.params, ?_, ?_, ?_⟩
    · have := occupied_set (b := { e with value := v }) he
      have h2 : occupied (h.entries.set i { e with value := v }) = occupied h.entries := by
        simpa [hf] using this
      show h.size = _
      rw [h2, w.size_eq]
    · intro p q k' hp hq
      exact w.nodup p q k' ((hkey _ _).mp hp) ((hkey _ _).mp hq)
    · intro p k' hp x hx hlt
      simp only [List.length_set] at hx hlt
      rw [hidx] at hlt
      have := w.path p k' ((hkey _ _).mp hp) x hx hlt
      rw [filledAt_set]
      by_cases hxi : x = i
      · exact Or.inl ⟨hxi, hi, hf⟩
      · exact Or.inr ⟨hxi, this⟩

/-! ## One iteration of the repair walk: clear slot `j`, write the entry back at slot `q` -/

theorem filledAt_move {es : List (entry α)} {j q x : Nat} {k : Key} {v : Option α}
    (hq : q < es.length) :
    FilledAt ((es.set j emptyEntry).set q { isFilled := true, key := k, value := v }) x ↔
      x = q ∨ (x ≠ q ∧ x ≠ j ∧ FilledAt es x) := by
  rw [filledAt_set, filledAt_set]
  simp [hq, emptyEntry]

theorem freeAt_move {es : List (entry α)} {j q x : Nat} {k : Key} {v : Option α}
    (hj : j < es.length) :
    FreeAt ((es.set j emptyEntry).set q { isFilled := true, key := k, value := v }) x ↔
      x ≠ q ∧ (x = j ∨ FreeAt es x) := by
  rw [freeAt_set, freeAt_set]
  simp only [List.length_set, emptyEntry, Bool.true_eq_false, and_false, false_or, hj,
    true_and, and_true]
  constructor
  · rintro ⟨h1, h2 | ⟨_, h2⟩⟩
    · exact ⟨h1, Or.inl h2⟩
    · exact ⟨h1, Or.inr h2⟩
  · rintro ⟨h1, h2 | h2⟩
    · exact ⟨h1, Or.inl h2⟩
    · by_cases hx : x = j
      · exact ⟨h1, Or.inl hx⟩
      · exact ⟨h1, Or.inr ⟨hx, h2⟩⟩

theorem keyAt_move {es : List (entry α)} {j q x : Nat} {k k' : Key} {v : Option α}
    (hq : q < es.length) :
    KeyAt ((es.set j emptyEntry).set q { isFilled := true, key := k, value := v }) x k' ↔
      (x = q ∧ k = k') ∨ (x ≠ q ∧ x ≠ j ∧ KeyAt es x k') := by
  rw [keyAt_set, keyAt_set]
  simp [hq, emptyEntry]

theorem holds_move {es : List (entry α)} {j q x : Nat} {k k' : Key} {v v' : Option α}
    (hq : q < es.length) :
    Holds ((es.set j emptyEntry).set q { isFilled := true, key := k, value := v }) x k' v' ↔
      (x = q ∧ k = k' ∧ v = v') ∨ (x ≠ q ∧ x ≠ j ∧ Holds es x k' v') := by
  rw [holds_set, holds_set]
  simp [hq, emptyEntry]

theorem move_same {es : List (entry α)} {j : Nat} {e : entry α} (he : es[j]? = some e)
    (hf : e.isFilled = true) :
    (es.set j emptyEntry).set j { isFilled := true, key := e.key, value := e.value } = es := by
  rw [List.set_set]
  apply List.ext_getElem?
  intro x
  rw [List.getElem?_set]
  by_cases hx : j = x
  · subst hx
    have hj : j < es.length := (List.getElem?_eq_some.mp he).1
    rw [if_pos rfl, if_pos hj, he]
    congr 1
    cases e
    simp only at hf
    subst hf
    rfl
  · rw [if_neg hx]

theorem sum_two_changed (f g : ℕ → ℕ) (n j q : ℕ) (hj : j < n) (hq : q < n) (hne : q ≠ j)
    (hoff : ∀ x, x ≠ j → x ≠ q → g x = f x) (hlt : g j + g q < f j + f q) :
    ∑ x ∈ Finset.range n, g x < ∑ x ∈ Finset.range n, f x := by
  have hjm : j ∈ Finset.range n := Finset.mem_range.mpr hj
  have hqm : q ∈ (Finset.range n).erase j :=
    Finset.mem_erase.mpr ⟨hne, Finset.mem_range.mpr hq⟩
  have hrest : ∑ x ∈ ((Finset.range n).erase j).erase q, g x
      = ∑ x ∈ ((Finset.range n).erase j).erase q, f x := by
    apply Finset.sum_congr rfl
    intro x hx
    have h1 := Finset.mem_erase.mp hx
    have h2 := Finset.mem_erase.mp h1.2
    exact hoff x h2.1 h1.1
  rw [← Finset.add_sum_erase _ f hjm, ← Finset.add_sum_erase _ g hjm,
    ← Finset.add_sum_erase _ f hqm, ← Finset.add_sum_erase _ g hqm, hrest]
  omega

theorem succ_mod_eq {n j : Nat} (hj : j < n) :
    (j + 1) % n = if j + 1 = n then 0 else j + 1 := by
  split_ifs with h
  · rw [h, Nat.mod_self]
  · exact Nat.mod_eq_of_lt (by omega)

theorem disp_move {h : HashMap α} {j q x : Nat} {k : Key} {v : Option α} {sz : Int}
    (hj : j < h.entries.length) (hq : q < h.entries.length) :
    disp { h with
        entries := (h.entries.set j emptyEntry).set q { isFilled := true, key := k, value := v }
        size := sz } x
      = if x = q then cdist h.entries.length (hashIndex h k) q
        else if x = j then 0 else disp h x := by
  have hidx : ∀ k', hashIndex ({ h with
        entries := (h.entries.set j emptyEntry).set q { isFilled := true, key := k, value := v }
        size := sz } : HashMap α) k' = hashIndex h k' := by
    intro k'
    simp [hashIndex, HashMap.Capacity]
  unfold disp
  simp only [hidx, List.length_set]
  rw [List.getElem?_set, List.getElem?_set]
  by_cases hxq : q = x
  · subst hxq
    simp [hq]
  · have hxq' : ¬ x = q := fun h => hxq h.symm
    rw [if_neg hxq, if_neg hxq']
    by_cases hxj : j = x
    · subst hxj
      simp [hj, emptyEntry]
    · have hxj' : ¬ x = j := fun h => hxj h.symm
      rw [if_neg hxj, if_neg hxj']

/-- One iteration of the repair walk keeps the loop invariant, the hash parameters and the
stored key/value pairs, and either leaves the table as it is or lowers the potential and
leaves the slot of the walker empty. The `Set` it performs returns `true`. -/
theorem rehash_step {h : HashMap α} {j : Nat} {e : entry α} (li : LoopInv h j)
    (he : h.entries[j]? = some e) (hf : e.isFilled = true) :
    ∃ h2, ({ h with entries := h.entries.set j emptyEntry, size := h.size - 1 } :
          HashMap α).Set e.key e.value = .ok (h2, true) ∧
      SameHash h h2 ∧ h2.size = h.size ∧ LoopInv h2 ((j + 1) % h2.Capacity) ∧
      (∀ k v, (∃ p, Holds h2.entries p k v) ↔ (∃ p, Holds h.entries p k v)) ∧
      (h2 = h ∨ (potential h2 < potential h ∧ FreeAt h2.entries j)) := by
  obtain ⟨hp, hj, hole, hsize, hnd, hpath⟩ := li
  have hkj : KeyAt h.entries j e.key := ⟨e, he, hf, rfl⟩
  have hhj : Holds h.entries j e.key e.value := by
    unfold Holds
    rw [he]
    cases e
    simp only at hf
    subst hf
    rfl
  have hp1 : Params ({ h with entries := h.entries.set j emptyEntry, size := h.size - 1 } :
      HashMap α) := ⟨by simpa using hp.1, hp.2⟩
  have hfree1 : FreeAt (h.entries.set j emptyEntry) j := by
    rw [freeAt_set]
    exact Or.inl ⟨rfl, hj, rfl⟩
  rcases Set_cases hp1 e.key e.value with ⟨_, hall, _⟩ | ⟨q, _, hfree, hpq, hs⟩ |
      ⟨i, e', _, he', hf', hk', _, _⟩
  · exact absurd (hall j (by simpa using hj)).1 (not_filled_of_free hfree1)
  · simp only [List.length_set] at hpq
    have hs1 : SameHash h ({ h with entries := h.entries.set j emptyEntry, size := h.size - 1 } :
        HashMap α) := ⟨rfl, rfl, rfl, by simp⟩
    rw [hs1.hashIndex] at hpq
    have hq : q < h.entries.length := by
      obtain ⟨e1, he1, _⟩ := hfree
      have := (List.getElem?_eq_some.mp he1).1
      simpa using this
    have hqcase : q = j ∨ (q ≠ j ∧ FreeAt h.entries q) := by
      rcases freeAt_set.mp hfree with ⟨hqj, _, _⟩ | ⟨hqj, hfq⟩
      · exact Or.inl hqj
      · exact Or.inr ⟨hqj, hfq⟩
    have hpq' : ∀ x, x < h.entries.length →
        cdist h.entries.length (hashIndex h e.key) x
            < cdist h.entries.length (hashIndex h e.key) q →
          x ≠ j ∧ FilledAt h.entries x := by
      intro x hx hlt
      rcases filledAt_set.mp (hpq x hx hlt).1 with ⟨_, _, hbad⟩ | hgood
      · simp [emptyEntry] at hbad
      · exact hgood
    have hsame : SameHash h ({ h with
        entries := (h.entries.set j emptyEntry).set q
          { isFilled := true, key := e.key, value := e.value }
        size := h.size - 1 + 1 } : HashMap α) := ⟨rfl, rfl, rfl, by simp⟩
    have hfill2 : ∀ x, x ≠ j → FilledAt h.entries x →
        FilledAt ((h.entries.set j emptyEntry).set q
          { isFilled := true, key := e.key, value := e.value }) x := by
      intro x hxj hx
      rw [filledAt_move hq]
      by_cases hxq : x = q
      · exact Or.inl hxq
      · exact Or.inr ⟨hxq, hxj, hx⟩
    refine ⟨_, hs, hsame, by simp, ⟨hsame.params hp, ?_, ?_, ?_, ?_, ?_⟩, ?_, ?_⟩
    · simp only [HashMap.Capacity, List.length_set]
      exact Nat.mod_lt _ hp.1
    · rcases hqcase with hqj | ⟨hqj, _⟩
      · obtain ⟨x, hx⟩ := hole
        refine ⟨x, (freeAt_move hj).mpr ⟨?_, Or.inr hx⟩⟩
        rintro rfl
        rw [hqj] at hx
        exact not_filled_of_free hx hkj.filled
      · exact ⟨j, (freeAt_move hj).mpr ⟨fun hjq => hqj hjq.symm, Or.inl rfl⟩⟩
    · have h1 := occupied_set (b := (emptyEntry : entry α)) he
      obtain ⟨e1, he1, hf1⟩ := hfree
      have h2 := occupied_set (b := { isFilled := true, key := e.key, value := e.value }) he1
      have h1' : occupied (h.entries.set j emptyEntry) + 1 = occupied h.entries := by
        simpa [hf, emptyEntry] using h1
      have h2' : occupied ((h.entries.set j emptyEntry).set q
          { isFilled := true, key := e.key, value := e.value })
          = occupied (h.entries.set j emptyEntry) + 1 := by
        simpa [hf1] using h2
      show h.size - 1 + 1 = ((occupied ((h.entries.set j emptyEntry).set q
          { isFilled := true, key := e.key, value := e.value }) : ℕ) : ℤ)
      rw [h2', hsize, ← h1']
      push_cast
      ring
    · intro p p' k' hpk hpk'
      rw [keyAt_move hq] at hpk hpk'
      rcases hpk with ⟨h1, h2⟩ | ⟨_, h1, h2⟩ <;> rcases hpk' with ⟨h3, h4⟩ | ⟨_, h3, h4⟩
      · rw [h1, h3]
      · subst h2
        exact absurd (hnd _ _ _ h4 hkj) h3
      · subst h4
        exact absurd (hnd _ _ _ h2 hkj) h1
      · exact hnd _ _ _ h2 h4
    · intro p k' hpk
      have hpk2 := hpk
      rw [keyAt_move hq] at hpk
      simp only [HashMap.Capacity, List.length_set, PathFilled, hsame.hashIndex]
      rw [succ_mod_eq hj]
      rcases hpk with ⟨h1, h2⟩ | ⟨hpq2, hpj, hkp⟩
      · left
        subst h1 h2
        intro x hx hlt
        obtain ⟨hxj, hxf⟩ := hpq' x hx hlt
        exact hfill2 x hxj hxf
      · have hpn : p < h.entries.length := hkp.filled.lt
        rcases hpath p k' hkp with hgood | hrun
        · by_cases hcut : cdist h.entries.length (hashIndex h k') j
              < cdist h.entries.length (hashIndex h k') p
          · right
            intro x hx hle
            by_cases hxp : x = p
            · rw [hxp]
              exact hpk2.filled
            · have hs' := hashIndex_lt hp k'
              have harith : x ≠ j ∧ cdist h.entries.length (hashIndex h k') x
                  < cdist h.entries.length (hashIndex h k') p := by
                unfold cdist at hcut hle ⊢
                split_ifs at hcut hle ⊢ <;> omega
              exact hfill2 x harith.1 (hgood x hx harith.2)
          · left
            intro x hx hlt
            have hxj : x ≠ j := by
              rintro rfl
              exact hcut hlt
            exact hfill2 x hxj (hgood x hx hlt)
        · right
          intro x hx hle
          have harith : x ≠ j ∧ cdist h.entries.length j x ≤ cdist h.entries.length j p := by
            unfold cdist at hle ⊢
            split_ifs at hle ⊢ <;> omega
          exact hfill2 x harith.1 (hrun x hx harith.2)
    · intro k' v'
      constructor
      · rintro ⟨p, hph⟩
        rcases (holds_move hq).mp hph with ⟨_, h2, h3⟩ | ⟨_, _, h3⟩
        · subst h2 h3
          exact ⟨j, hhj⟩
        · exact ⟨p, h3⟩
      · rintro ⟨p, hph⟩
        by_cases hpj : p = j
        · subst hpj
          have h1 := hph.keyAt.unique hkj
          subst h1
          have h2 : v' = e.value := by
            unfold Holds at hph hhj
            rw [hph] at hhj
            simpa using hhj
          subst h2
          exact ⟨q, (holds_move hq).mpr (Or.inl ⟨rfl, rfl, rfl⟩)⟩
        · refine ⟨p, (holds_move hq).mpr (Or.inr ⟨?_, hpj, hph⟩)⟩
          rintro rfl
          rcases hqcase with h1 | ⟨_, h1⟩
          · exact hpj h1
          · exact not_filled_of_free h1 hph.keyAt.filled
    · rcases hqcase with hqj | ⟨hqj, hqf⟩
      · left
        subst hqj
        rw [move_same he hf]
        cases h
        simp
      · right
        refine ⟨?_, (freeAt_move hj).mpr ⟨fun hjq => hqj hjq.symm, Or.inl rfl⟩⟩
        unfold potential
        simp only [List.length_set]
        apply sum_two_changed _ _ _ j q hj hq hqj
        · intro x hxj hxq
          rw [disp_move hj hq, if_neg hxq, if_neg hxj]
        · rw [disp_move hj hq, disp_move hj hq, if_neg (fun hjq => hqj hjq.symm), if_pos rfl,
            if_pos rfl]
          have hdj : disp h j = cdist h.entries.length (hashIndex h e.key) j := by
            unfold disp
            rw [he]
            simp [hf]
          have hdq : disp h q = 0 := by
            obtain ⟨e1, he1, hf1⟩ := hqf
            unfold disp
            rw [he1]
            simp [hf1]
          rw [hdj, hdq]
          have hs' := hashIndex_lt hp e.key
          have hle : ¬ cdist h.entries.length (hashIndex h e.key) j
              < cdist h.entries.length (hashIndex h e.key) q :=
            fun hlt => (hpq' j hj hlt).1 rfl
          have hne : cdist h.entries.length (hashIndex h e.key) q
              ≠ cdist h.entries.length (hashIndex h e.key) j :=
            fun heq => hqj (cdist_inj hs' hq hj heq)
          omega
  · have hki : KeyAt (h.entries.set j emptyEntry) i e.key := ⟨e', he', hf', hk'⟩
    rcases keyAt_set.mp hki with ⟨_, _, hbad, _⟩ | ⟨hij, hki'⟩
    · simp [emptyEntry] at hbad
    · exact absurd (hnd i j e.key hki' hkj) hij

/-! ## The repair walk as a whole -/

theorem rehashLoop_free {h : HashMap α} {j : Nat} (fuel : Nat) (hfree : FreeAt h.entries j) :
    rehashLoop fuel h j = some (.ok h) := by
  obtain ⟨e, he, hf⟩ := hfree
  unfold rehashLoop
  simp [he, hf]

theorem rehashLoop_filled {h h2 : HashMap α} {j : Nat} {e : entry α} {r : Bool} (fuel : Nat)
    (he : h.entries[j]? = some e) (hf : e.isFilled = true)
    (hset : ({ h with entries := h.entries.set j emptyEntry, size := h.size - 1 } :
      HashMap α).Set e.key e.value = .ok (h2, r))
    (hcap : h2.Capacity ≠ 0) :
    rehashLoop (fuel + 1) h j = rehashLoop fuel h2 ((j + 1) % h2.Capacity) := by
  conv_lhs => unfold rehashLoop
  simp [he, hf, hset, hcap]

theorem rehashLoop_filled_zero {h : HashMap α} {j : Nat} {e : entry α}
    (he : h.entries[j]? = some e) (hf : e.isFilled = true) :
    rehashLoop 0 h j = none := by
  unfold rehashLoop
  simp [he, hf]

theorem LoopInv.wf_of_free {h : HashMap α} {j : Nat} (li : LoopInv h j)
    (hfree : FreeAt h.entries j) : WF h := by
  refine ⟨li.params, li.size_eq, li.nodup, ?_⟩
  intro p k hk
  rcases li.path p k hk with hgood | hrun
  · exact hgood
  · have := hrun j li.walker (by simp [cdist])
    exact absurd this (not_filled_of_free hfree)

theorem rehashLoop_total_aux :
    ∀ (m d : Nat) (h : HashMap α) (j : Nat), potential h = m → LoopInv h j →
      (∃ x, FreeAt h.entries x ∧ cdist h.entries.length j x = d) → WalkResult h j := by
  intro m
  induction m using Nat.strong_induction_on with
  | _ m ihm =>
    intro d
    induction d with
    | zero =>
      rintro h j _ li ⟨x, hx, hd⟩
      have hxn : x < h.entries.length := by
        obtain ⟨e, he, _⟩ := hx
        exact (List.getElem?_eq_some.mp he).1
      have hxj : x = j := by
        have hj := li.walker
        unfold cdist at hd
        split_ifs at hd <;> omega
      subst hxj
      exact ⟨0, h, fun fuel _ => rehashLoop_free fuel hx, li.wf_of_free hx, SameHash.refl h,
        rfl, fun _ _ => Iff.rfl⟩
    | succ d ihd =>
      rintro h j hm li ⟨x, hx, hd⟩
      have hxn : x < h.entries.length := by
        obtain ⟨e, he, _⟩ := hx
        exact (List.getElem?_eq_some.mp he).1
      have hj := li.walker
      rcases filled_or_free hj with ⟨e, he, hf⟩ | hfree
      · obtain ⟨h2, hset, hsame, hsz, li2, hcont, hcase⟩ := rehash_step li he hf
        have hcap : h2.Capacity ≠ 0 := by
          unfold HashMap.Capacity
          rw [hsame.2.2.2]
          omega
        have hres : WalkResult h2 ((j + 1) % h2.Capacity) := by
          rcases hcase with heq | ⟨hlt, hfj⟩
          · subst heq
            apply ihd h2 _ hm li2
            refine ⟨x, hx, ?_⟩
            unfold HashMap.Capacity
            rw [succ_mod_eq hj]
            unfold cdist at hd ⊢
            split_ifs at hd ⊢ <;> omega
          · exact ihm (potential h2) (hm ▸ hlt) _ h2 _ rfl li2 ⟨j, hfj, rfl⟩
        obtain ⟨N, h', hrun, hwf, hsame', hsz', hcont'⟩ := hres
        refine ⟨N + 1, h', ?_, hwf, hsame.trans hsame', hsz'.trans hsz,
          fun k v => (hcont' k v).trans (hcont k v)⟩
        intro fuel hfuel
        obtain ⟨fuel', rfl⟩ : ∃ fuel', fuel = fuel' + 1 := ⟨fuel - 1, by omega⟩
        rw [rehashLoop_filled fuel' he hf hset hcap]
        exact hrun fuel' (by omega)
      · exact ⟨0, h, fun fuel _ => rehashLoop_free fuel hfree, li.wf_of_free hfree,
          SameHash.refl h, rfl, fun _ _ => Iff.rfl⟩

/-- The repair walk terminates from every state that satisfies the loop invariant, and it
ends in a well-formed table with the same stored key/value pairs. -/
theorem rehashLoop_total {h : HashMap α} {j : Nat} (li : LoopInv h j) : WalkResult h j := by
  obtain ⟨x, hx⟩ := li.hole
  exact rehashLoop_total_aux _ _ h j rfl li ⟨x, hx, rfl⟩

theorem rehashLoop_none {h : HashMap α} {j : Nat} (fuel : Nat) (he : h.entries[j]? = none) :
    rehashLoop fuel h j = some (.error .indexOutOfRange) := by
  unfold rehashLoop
  simp [he]

theorem rehashLoop_succ {h : HashMap α} {j : Nat} {e : entry α} (fuel : Nat)
    (he : h.entries[j]? = some e) (hf : e.isFilled = true) :
    rehashLoop (fuel + 1) h j =
      match ({ h with entries := h.entries.set j emptyEntry, size := h.size - 1 } :
          HashMap α).Set e.key e.value with
      | .error f => some (.error f)
      | .ok (h2, _) =>
        if h2.Capacity = 0 then some (.error .divideByZero)
        else rehashLoop fuel h2 ((j + 1) % h2.Capacity) := by
  conv_lhs => unfold rehashLoop
  simp [he, hf]

/-- More fuel does not change the result of a walk that returned. -/
theorem rehashLoop_mono : ∀ (fuel : Nat) (h : HashMap α) (j : Nat) (r : Except Fault (HashMap α)),
    rehashLoop fuel h j = some r → ∀ fuel', fuel ≤ fuel' → rehashLoop fuel' h j = some r := by
  intro fuel
  induction fuel with
  | zero =>
    intro h j r hr fuel' _
    cases he : h.entries[j]? with
    | none =>
      rw [rehashLoop_none _ he] at hr ⊢
      exact hr
    | some e =>
      cases hf : e.isFilled with
      | false =>
        rw [rehashLoop_free _ ⟨e, he, hf⟩] at hr ⊢
        exact hr
      | true =>
        rw [rehashLoop_filled_zero he hf] at hr
        cases hr
  | succ fuel ih =>
    intro h j r hr fuel' hle
    obtain ⟨f', rfl⟩ : ∃ f', fuel' = f' + 1 := ⟨fuel' - 1, by omega⟩
    cases he : h.entries[j]? with
    | none =>
      rw [rehashLoop_none _ he] at hr ⊢
      exact hr
    | some e =>
      cases hf : e.isFilled with
      | false =>
        rw [rehashLoop_free _ ⟨e, he, hf⟩] at hr ⊢
        exact hr
      | true =>
        rw [rehashLoop_succ _ he hf] at hr ⊢
        cases hS : ({ h with entries := h.entries.set j emptyEntry, size := h.size - 1 } :
            HashMap α).Set e.key e.value with
        | error f =>
          rw [hS] at hr
          exact hr
        | ok p =>
          obtain ⟨h2, r2⟩ := p
          rw [hS] at hr
          simp only at hr ⊢
          by_cases hcap : h2.Capacity = 0
          · rw [if_pos hcap] at hr ⊢
            exact hr
          · rw [if_neg hcap] at hr ⊢
            exact ih _ _ _ hr _ (by omega)

/-! ## `Get` and `Delete` on well-formed tables -/

theorem Get_of_holds {h : HashMap α} (w : WF h) {p : Nat} {k : Key} {v : Option α}
    (hh : Holds h.entries p k v) : h.Get k = .ok v := by
  have hfind := w.find hh.keyAt
  unfold Holds at hh
  simp [HashMap.Get, hfind, hh]

theorem find_absent {h : HashMap α} (hp : Params h) {k : Key}
    (hk : ∀ p, ¬ KeyAt h.entries p k) :
    h.findEntryOrEmptySlot k = .ok none ∨
      ∃ q, h.findEntryOrEmptySlot k = .ok (some q) ∧ FreeAt h.entries q := by
  rcases find_cases hp k with ⟨q, hq, _, _, hend⟩ | ⟨hq, _⟩
  · rcases hend with hfree | hkey
    · exact Or.inr ⟨q, hq, hfree⟩
    · exact absurd hkey (hk q)
  · exact Or.inl hq

theorem Get_of_absent {h : HashMap α} (hp : Params h) {k : Key}
    (hk : ∀ p, ¬ KeyAt h.entries p k) : h.Get k = .ok none := by
  rcases find_absent hp hk with hq | ⟨q, hq, e, he, hf⟩
  · simp [HashMap.Get, hq]
  · simp [HashMap.Get, hq, he, hf]

theorem Delete_of_absent {h : HashMap α} (hp : Params h) {k : Key}
    (hk : ∀ p, ¬ KeyAt h.entries p k) (fuel : Nat) :
    h.Delete fuel k = some (.ok (h, none)) := by
  rcases find_absent hp hk with hq | ⟨q, hq, e, he, hf⟩
  · simp [HashMap.Delete, hq]
  · simp [HashMap.Delete, hq, he, hf]

theorem Delete_eq_walk {h : HashMap α} (w : WF h) {p : Nat} {k : Key} {v : Option α}
    (hh : Holds h.entries p k v) (fuel : Nat) :
    h.Delete fuel k =
      (rehashLoop fuel { h with entries := h.entries.set p emptyEntry, size := h.size - 1 }
          ((p + 1) % h.entries.length)).map (Except.map (fun h2 => (h2, v))) := by
  have hfind := w.find hh.keyAt
  have hcap : h.entries.length ≠ 0 := Nat.pos_iff_ne_zero.mp w.params.1
  unfold Holds at hh
  simp only [HashMap.Delete, hfind, hh, HashMap.Capacity, List.length_set, hcap, if_false,
    Bool.not_true, Bool.false_eq_true]
  generalize rehashLoop fuel _ _ = res
  cases res with
  | none => rfl
  | some r => cases r <;> rfl

theorem LoopInv_of_clear {h : HashMap α} (w : WF h) {p : Nat} {k : Key}
    (hk : KeyAt h.entries p k) :
    LoopInv { h with entries := h.entries.set p emptyEntry, size := h.size - 1 }
      ((p + 1) % h.entries.length) := by
  have hp := hk.filled.lt
  have hsame : SameHash h ({ h with entries := h.entries.set p emptyEntry, size := h.size - 1 } :
      HashMap α) := ⟨rfl, rfl, rfl, by simp⟩
  have hkey : ∀ x k', KeyAt (h.entries.set p emptyEntry) x k' → x ≠ p ∧ KeyAt h.entries x k' := by
    intro x k' hx
    rcases keyAt_set.mp hx with ⟨_, _, hbad, _⟩ | hgood
    · simp [emptyEntry] at hbad
    · exact hgood
  have hfill : ∀ x, x ≠ p → FilledAt h.entries x → FilledAt (h.entries.set p emptyEntry) x :=
    fun x hxp hx => filledAt_set.mpr (Or.inr ⟨hxp, hx⟩)
  refine ⟨hsame.params w.params, ?_, ?_, ?_, ?_, ?_⟩
  · simp only [List.length_set]
    exact Nat.mod_lt _ w.params.1
  · exact ⟨p, freeAt_set.mpr (Or.inl ⟨rfl, hp, rfl⟩)⟩
  · obtain ⟨e, he, hf, _⟩ := hk
    have h1 := occupied_set (b := (emptyEntry : entry α)) he
    have h1' : occupied (h.entries.set p emptyEntry) + 1 = occupied h.entries := by
      simpa [hf, emptyEntry] using h1
    show h.size - 1 = ((occupied (h.entries.set p emptyEntry) : ℕ) : ℤ)
    rw [w.size_eq, ← h1']
    push_cast
    ring
  · intro x y k' hx hy
    exact w.nodup x y k' (hkey _ _ hx).2 (hkey _ _ hy).2
  · intro x k' hx
    obtain ⟨hxp, hxk⟩ := hkey _ _ hx
    have hxn := hxk.filled.lt
    have hgood := w.path x k' hxk
    simp only [PathFilled, hsame.hashIndex, List.length_set]
    rw [succ_mod_eq hp]
    by_cases hcut : cdist h.entries.length (hashIndex h k') p
        < cdist h.entries.length (hashIndex h k') x
    · right
      intro y hy hle
      by_cases hyx : y = x
      · rw [hyx]
        exact hx.filled
      · have hs' := hashIndex_lt w.params k'
        have harith : y ≠ p ∧ cdist h.entries.length (hashIndex h k') y
            < cdist h.entries.length (hashIndex h k') x := by
          unfold cdist at hcut hle ⊢
          split_ifs at hcut hle ⊢ <;> omega
        exact hfill y harith.1 (hgood y hy harith.2)
    · left
      intro y hy hlt
      have hyp : y ≠ p := by
        rintro rfl
        exact hcut hlt
      exact hfill y hyp (hgood y hy hlt)

/-- `Delete` of a stored key on a well-formed table: with enough fuel it returns the stored
value and a well-formed table that holds the other key/value pairs and nothing else, and no
amount of fuel makes it return anything else. -/
theorem Delete_found {h : HashMap α} (w : WF h) {p : Nat} {k : Key} {v : Option α}
    (hh : Holds h.entries p k v) :
    ∃ N h', (∀ fuel, N ≤ fuel → h.Delete fuel k = some (.ok (h', v))) ∧
      (∀ fuel r, h.Delete fuel k = some r → r = .ok (h', v)) ∧
      WF h' ∧ SameHash h h' ∧ h'.size = h.size - 1 ∧
      ∀ k' v', (∃ x, Holds h'.entries x k' v') ↔ (k' ≠ k ∧ ∃ x, Holds h.entries x k' v') := by
  obtain ⟨N, h', hrun, hwf, hsame, hsz, hcont⟩ := rehashLoop_total (LoopInv_of_clear w hh.keyAt)
  have hs1 : SameHash h ({ h with entries := h.entries.set p emptyEntry, size := h.size - 1 } :
      HashMap α) := ⟨rfl, rfl, rfl, by simp⟩
  refine ⟨N, h', ?_, ?_, hwf, hs1.trans hsame, hsz, ?_⟩
  · intro fuel hfuel
    rw [Delete_eq_walk w hh, hrun fuel hfuel]
    rfl
  · intro fuel r hr
    rw [Delete_eq_walk w hh] at hr
    cases hres : rehashLoop fuel
        { h with entries := h.entries.set p emptyEntry, size := h.size - 1 }
        ((p + 1) % h.entries.length) with
    | none =>
      rw [hres] at hr
      cases hr
    | some r0 =>
      rw [hres] at hr
      have h1 := rehashLoop_mono _ _ _ _ hres (max fuel N) (Nat.le_max_left _ _)
      rw [hrun _ (Nat.le_max_right _ _)] at h1
      cases h1
      cases hr
      rfl
  · intro k' v'
    rw [hcont]
    constructor
    · rintro ⟨x, hx⟩
      rcases holds_set.mp hx with ⟨_, _, hbad⟩ | ⟨hxp, hx'⟩
      · simp [emptyEntry] at hbad
      · refine ⟨?_, x, hx'⟩
        rintro rfl
        exact hxp (w.nodup _ _ _ hx'.keyAt hh.keyAt)
    · rintro ⟨hne, x, hx⟩
      refine ⟨x, holds_set.mpr (Or.inr ⟨?_, hx⟩)⟩
      rintro rfl
      exact hne (hx.keyAt.unique hh.keyAt)

theorem WF_delete {h h' : HashMap α} {fuel : Nat} {k : Key} {r : Option α} (w : WF h)
    (hdel : h.Delete fuel k = some (.ok (h', r))) : WF h' := by
  by_cases hk : ∃ p, KeyAt h.entries p k
  · obtain ⟨p, hk⟩ := hk
    obtain ⟨v, hh⟩ := hk.holds
    obtain ⟨_, h'', _, huniq, hwf, _⟩ := Delete_found w hh
    have := huniq fuel _ hdel
    cases this
    exact hwf
  · have habs : ∀ p, ¬ KeyAt h.entries p k := fun p hp => hk ⟨p, hp⟩
    rw [Delete_of_absent w.params habs fuel] at hdel
    cases hdel
    exact w

/-- Every reachable table is well formed. -/
theorem Reachable.wf {h : HashMap α} (hr : Reachable h) : WF h := by
  induction hr with
  | new c a b h hc _ _ hnew => exact WF_new hc hnew
  | set h h' k v r _ hset ih => exact WF_set ih hset
  | delete h h' fuel k r _ hdel ih => exact WF_delete ih hdel

/-- On a table with `Params`, `Set` and `Get` always return. -/
theorem Set_returns {h : HashMap α} (hp : Params h) (k : Key) (v : Option α) :
    ∃ h' r, h.Set k v = .ok (h', r) := by
  rcases Set_cases hp k v with ⟨_, _, hs⟩ | ⟨_, _, _, _, hs⟩ | ⟨_, _, _, _, _, _, _, hs⟩
  · exact ⟨_, _, hs⟩
  · exact ⟨_, _, hs⟩
  · exact ⟨_, _, hs⟩

theorem params_of_find_ok {h : HashMap α} {k : Key} {r : Option Nat}
    (hfind : h.findEntryOrEmptySlot k = .ok r) : Params h := by
  unfold HashMap.findEntryOrEmptySlot HashMap.hash at hfind
  by_cases hP : h.hashP = 0
  · simp [hP] at hfind
  · by_cases hC : h.Capacity = 0
    · simp [hP, hC] at hfind
    · exact ⟨Nat.pos_of_ne_zero hC, hP⟩

theorem params_of_set_ok {h h' : HashMap α} {k : Key} {v : Option α} {r : Bool}
    (hset : h.Set k v = .ok (h', r)) : Params h := by
  cases hfind : h.findEntryOrEmptySlot k with
  | error f => simp [HashMap.Set, hfind] at hset
  | ok r => exact params_of_find_ok hfind

/-- The three ways in which `Set` returns, with the slot it wrote. -/
theorem Set_result {h h' : HashMap α} {k : Key} {v : Option α} {r : Bool}
    (hset : h.Set k v = .ok (h', r)) :
    (r = false ∧ h' = h ∧ h.findEntryOrEmptySlot k = .ok none ∧
        ∀ x, x < h.entries.length → FilledAt h.entries x ∧ ¬ KeyAt h.entries x k) ∨
    (r = true ∧ ∃ i, h.findEntryOrEmptySlot k = .ok (some i) ∧ FreeAt h.entries i ∧
        h'.entries = h.entries.set i { isFilled := true, key := k, value := v } ∧
        h'.size = h.size + 1 ∧ Holds h'.entries i k v) ∨
    (r = true ∧ ∃ i, h.findEntryOrEmptySlot k = .ok (some i) ∧ KeyAt h.entries i k ∧
        h'.entries = h.entries.set i { isFilled := true, key := k, value := v } ∧
        h'.size = h.size ∧ Holds h'.entries i k v) := by
  rcases Set_cases (params_of_set_ok hset) k v with ⟨hfind, hall, hs⟩ |
      ⟨i, hfind, hfree, _, hs⟩ | ⟨i, e, hfind, he, hf, hk, _, hs⟩
  · rw [hs] at hset
    cases hset
    exact Or.inl ⟨rfl, rfl, hfind, hall⟩
  · rw [hs] at hset
    cases hset
    have hi : i < h.entries.length := by
      obtain ⟨e, he, _⟩ := hfree
      exact (List.getElem?_eq_some.mp he).1
    exact Or.inr (Or.inl ⟨rfl, i, hfind, hfree, rfl, rfl, holds_set.mpr (Or.inl ⟨rfl, hi, rfl⟩)⟩)
  · rw [hs] at hset
    cases hset
    have hi : i < h.entries.length := (List.getElem?_eq_some.mp he).1
    have heq : ({ e with value := v } : entry α) = { isFilled := true, key := k, value := v } := by
      cases e
      simp only at hf hk
      subst hf hk
      rfl
    refine Or.inr (Or.inr ⟨rfl, i, hfind, ⟨e, he, hf, hk⟩, ?_, rfl, ?_⟩)
    · show h.entries.set i _ = _
      rw [heq]
    · show Holds (h.entries.set i _) i k v
      rw [heq]
      exact holds_set.mpr (Or.inl ⟨rfl, hi, rfl⟩)

theorem Get_after_Set {h h' : HashMap α} {k : Key} {v : Option α} (w : WF h)
    (hset : h.Set k v = .ok (h', true)) : h'.Get k = .ok v := by
  have w' := WF_set w hset
  rcases Set_result hset with ⟨hr, _⟩ | ⟨_, i, _, _, _, _, hh⟩ | ⟨_, i, _, _, _, _, hh⟩
  · cases hr
  · exact Get_of_holds w' hh
  · exact Get_of_holds w' hh

/-! ## The concrete tables are reachable -/

theorem table0_new : New 3 0 0 = .ok table0 := rfl

theorem table1_set : table0.Set keyA (some 3) = .ok (table1, true) := rfl

theorem table2_set : table1.Set keyD (some 4) = .ok (table2, true) := rfl

theorem table3_set : table2.Set keyG (some 5) = .ok (table3, true) := rfl

theorem table0_reachable : Reachable table0 :=
  Reachable.new 3 0 0 table0 (by decide) (by decide) (by decide) table0_new

theorem table1_reachable : Reachable table1 :=
  Reachable.set table0 table1 keyA (some 3) true table0_reachable table1_set

theorem table2_reachable : Reachable table2 :=
  Reachable.set table1 table2 keyD (some 4) true table1_reachable table2_set

theorem table3_reachable : Reachable table3 :=
  Reachable.set table2 table3 keyG (some 5) true table2_reachable table3_set

/-! ## Statements about the public operations -/

/-- On well-formed tables `Get` is determined by the stored key/value pairs. -/
theorem Get_congr {h h' : HashMap α} (w : WF h) (w' : WF h') (k : Key)
    (hc : ∀ v, (∃ x, Holds h'.entries x k v) ↔ (∃ x, Holds h.entries x k v)) :
    ∃ r, h.Get k = .ok r ∧ h'.Get k = .ok r := by
  by_cases hk : ∃ x, KeyAt h.entries x k
  · obtain ⟨x, hx⟩ := hk
    obtain ⟨v, hv⟩ := hx.holds
    obtain ⟨x', hv'⟩ := (hc v).mpr ⟨x, hv⟩
    exact ⟨v, Get_of_holds w hv, Get_of_holds w' hv'⟩
  · refine ⟨none, Get_of_absent w.params (fun x hx => hk ⟨x, hx⟩), Get_of_absent w'.params ?_⟩
    intro x hx
    obtain ⟨v, hv⟩ := hx.holds
    obtain ⟨y, hy⟩ := (hc v).mp ⟨x, hv⟩
    exact hk ⟨y, hy.keyAt⟩

/-- Claim C1. In a reachable table, `Delete(k)` of a stored key `k` returns once it is given
enough fuel, and for every key `k'` other than `k` the call `Get(k')` on the table after the
deletion returns exactly what it returned before; in particular every other stored key is
still retrieved with its value. -/
theorem delete_keeps_other_keys {h : HashMap α} (hr : Reachable h) (k : Key)
    (hk : ∃ p, KeyAt h.entries p k) :
    ∃ N h' v, (∀ fuel, N ≤ fuel → h.Delete fuel k = some (.ok (h', v))) ∧
      (∀ k', k' ≠ k → ∃ r, h.Get k' = .ok r ∧ h'.Get k' = .ok r) ∧
      (∀ x k' v', k' ≠ k → Holds h.entries x k' v' → h'.Get k' = .ok v') := by
  have w := hr.wf
  obtain ⟨p, hk⟩ := hk
  obtain ⟨v, hh⟩ := hk.holds
  obtain ⟨N, h', hrun, _, hwf, _, _, hcont⟩ := Delete_found w hh
  have hget : ∀ k', k' ≠ k → ∃ r, h.Get k' = .ok r ∧ h'.Get k' = .ok r := by
    intro k' hne
    apply Get_congr w hwf k'
    intro v'
    rw [hcont]
    exact ⟨fun hx => hx.2, fun hx => ⟨hne, hx⟩⟩
  refine ⟨N, h', v, hrun, hget, ?_⟩
  intro x k' v' hne hx
  obtain ⟨r, h1, h2⟩ := hget k' hne
  rw [Get_of_holds w hx] at h1
  cases h1
  exact h2

/-- Claim C2. In a reachable table, if `Set(k, v)` returns true then `Get(k)` on the
resulting table returns `v`. -/
theorem set_then_get {h h' : HashMap α} (hr : Reachable h) (k : Key) (v : Option α)
    (hset : h.Set k v = .ok (h', true)) : h'.Get k = .ok v :=
  Get_after_Set hr.wf hset

/-- Claim C3. In a reachable table `Set(k, v)` returns, and it returns false exactly when
every slot is occupied, `Size` equals `Capacity` and no slot holds `k`; otherwise it returns
true. -/
theorem set_false_iff_full_and_new {h : HashMap α} (hr : Reachable h) (k : Key)
    (v : Option α) :
    ∃ h' r, h.Set k v = .ok (h', r) ∧
      (r = false ↔
        ((∀ x, x < h.Capacity → FilledAt h.entries x) ∧ h.Size = (h.Capacity : Int) ∧
          ∀ x, ¬ KeyAt h.entries x k)) ∧
      (r = true ↔ ((∃ x, FreeAt h.entries x) ∨ ∃ x, KeyAt h.entries x k)) := by
  have w := hr.wf
  obtain ⟨h', r, hset⟩ := Set_returns w.params k v
  refine ⟨h', r, hset, ?_⟩
  rcases Set_result hset with ⟨hr', _, _, hall⟩ | ⟨hr', i, hfind, hfree, _⟩ |
      ⟨hr', i, hfind, hkey, _⟩
  · subst hr'
    have hfull : ∀ x, x < h.entries.length → FilledAt h.entries x := fun x hx => (hall x hx).1
    have hnk : ∀ x, ¬ KeyAt h.entries x k := fun x hx => (hall x hx.filled.lt).2 hx
    constructor
    · refine ⟨fun _ => ⟨hfull, ?_, hnk⟩, fun _ => rfl⟩
      show h.size = ((h.entries.length : ℕ) : ℤ)
      rw [w.size_eq, (occupied_eq_length_iff _).mpr hfull]
    · constructor
      · intro hbad
        cases hbad
      · rintro (⟨x, hx⟩ | ⟨x, hx⟩)
        · exact absurd (hfull x (by obtain ⟨e, he, _⟩ := hx; exact (List.getElem?_eq_some.mp he).1))
            (not_filled_of_free hx)
        · exact absurd hx (hnk x)
  · subst hr'
    constructor
    · constructor
      · intro hbad
        cases hbad
      · rintro ⟨hfull, _, _⟩
        have hi : i < h.entries.length := by
          obtain ⟨e, he, _⟩ := hfree
          exact (List.getElem?_eq_some.mp he).1
        exact absurd (hfull i hi) (not_filled_of_free hfree)
    · exact ⟨fun _ => Or.inl ⟨i, hfree⟩, fun _ => rfl⟩
  · subst hr'
    constructor
    · constructor
      · intro hbad
        cases hbad
      · rintro ⟨_, _, hnk⟩
        exact absurd hkey (hnk i)
    · exact ⟨fun _ => Or.inr ⟨i, hkey⟩, fun _ => rfl⟩

/-- Claim C4. In a reachable table in which an occupied slot holds key `k` with value `v`,
`Delete(k)` returns `v`, the following `Get(k)` returns nil, and `Size` afterwards is one
less than before. -/
theorem delete_stored_key {h : HashMap α} (hr : Reachable h) {p : Nat} {k : Key}
    {v : Option α} (hh : Holds h.entries p k v) :
    ∃ N h', (∀ fuel, N ≤ fuel → h.Delete fuel k = some (.ok (h', v))) ∧
      h'.Get k = .ok none ∧ h'.Size = h.Size - 1 := by
  obtain ⟨N, h', hrun, _, hwf, _, hsz, hcont⟩ := Delete_found hr.wf hh
  refine ⟨N, h', hrun, Get_of_absent hwf.params ?_, hsz⟩
  intro x hx
  obtain ⟨v', hv'⟩ := hx.holds
  exact ((hcont k v').mp ⟨x, hv'⟩).1 rfl

/-- Claim C5. In a reachable table in which key `k` is stored (the table may be full),
`Set(k, v2)` returns true, the following `Get(k)` returns `v2`, and `Size` is unchanged. -/
theorem set_overwrites_stored_key {h : HashMap α} (hr : Reachable h) {p : Nat} {k : Key}
    (hk : KeyAt h.entries p k) (v2 : Option α) :
    ∃ h', h.Set k v2 = .ok (h', true) ∧ h'.Get k = .ok v2 ∧ h'.Size = h.Size := by
  have w := hr.wf
  have hfind := w.find hk
  obtain ⟨h', r, hset⟩ := Set_returns w.params k v2
  rcases Set_result hset with ⟨_, _, hnone, _⟩ | ⟨_, i, hfind', hfree, _⟩ |
      ⟨hr', i, _, _, _, hsz, _⟩
  · rw [hfind] at hnone
    cases hnone
  · rw [hfind] at hfind'
    cases hfind'
    exact absurd hk.filled (not_filled_of_free hfree)
  · subst hr'
    exact ⟨h', hset, Get_after_Set w hset, hsz⟩

/-- Claim C6. In a reachable table (full or not), for a key `k` that no occupied slot holds,
`Get(k)` returns nil and `Delete(k)` returns nil and leaves the whole table, `Size`
included, as it was. -/
theorem absent_key_get_delete {h : HashMap α} (hr : Reachable h) {k : Key}
    (hk : ∀ p, ¬ KeyAt h.entries p k) :
    h.Get k = .ok none ∧ ∀ fuel, h.Delete fuel k = some (.ok (h, none)) :=
  ⟨Get_of_absent hr.wf.params hk, Delete_of_absent hr.wf.params hk⟩

/-- Claim C7. For every table, key and value: a `Set(k, v)` that returns true writes the
slot returned by the probe search, which then holds `k` with `v`, and leaves every other
slot, the capacity and the hash parameters unchanged; a `Set(k, v)` that returns false
leaves the whole table, `Size` included, unchanged. -/
theorem set_writes_one_slot {h h' : HashMap α} {k : Key} {v : Option α} {r : Bool}
    (hset : h.Set k v = .ok (h', r)) :
    (r = true → ∃ i, h.findEntryOrEmptySlot k = .ok (some i) ∧ i < h.Capacity ∧
        Holds h'.entries i k v ∧ (∀ x, x ≠ i → h'.entries[x]? = h.entries[x]?) ∧
        h'.Capacity = h.Capacity ∧ h'.hashA = h.hashA ∧ h'.hashB = h.hashB ∧
        h'.hashP = h.hashP) ∧
    (r = false → h' = h ∧ h'.Size = h.Size) := by
  obtain ⟨hA, hB, hP, hlen⟩ := Set_sameHash hset
  rcases Set_result hset with ⟨hr', heq, _, _⟩ | ⟨hr', i, hfind, hfree, hent, _, hh⟩ |
      ⟨hr', i, hfind, hkey, hent, _, hh⟩
  · subst hr' heq
    exact ⟨fun hbad => (by cases hbad), fun _ => ⟨rfl, rfl⟩⟩
  · subst hr'
    refine ⟨fun _ => ⟨i, hfind, ?_, hh, ?_, hlen, hA, hB, hP⟩, fun hbad => (by cases hbad)⟩
    · obtain ⟨e, he, _⟩ := hfree
      exact (List.getElem?_eq_some.mp he).1
    · intro x hx
      rw [hent, List.getElem?_set_ne (fun hix => hx hix.symm)]
  · subst hr'
    refine ⟨fun _ => ⟨i, hfind, hkey.filled.lt, hh, ?_, hlen, hA, hB, hP⟩,
      fun hbad => (by cases hbad)⟩
    intro x hx
    rw [hent, List.getElem?_set_ne (fun hix => hx hix.symm)]

/-- Claim C8. In a reachable table `Size` is the number of occupied slots, so that
`0 ≤ Size ≤ Capacity` and the exact quotient `Load = Size / Capacity` lies in `[0, 1]`; a
`Set` that fills an empty slot raises `Size` by one, and a `Set` that overwrites or fails
leaves it unchanged. -/
theorem size_counts_occupied {h : HashMap α} (hr : Reachable h) :
    h.Size = (occupied h.entries : Int) ∧ 0 ≤ h.Size ∧ h.Size ≤ (h.Capacity : Int) ∧
      0 ≤ h.Load ∧ h.Load ≤ 1 ∧
      ∀ k v h' r, h.Set k v = .ok (h', r) →
        (∀ i, h.findEntryOrEmptySlot k = .ok (some i) → FreeAt h.entries i →
          h'.Size = h.Size + 1) ∧
        (∀ i, h.findEntryOrEmptySlot k = .ok (some i) → FilledAt h.entries i →
          h'.Size = h.Size) ∧
        (r = false → h'.Size = h.Size) := by
  have w := hr.wf
  have h0 : (0 : Int) ≤ h.Size := by
    show (0 : Int) ≤ h.size
    rw [w.size_eq]
    exact Int.natCast_nonneg _
  have h1 : h.Size ≤ (h.Capacity : Int) := by
    show h.size ≤ ((h.entries.length : ℕ) : ℤ)
    rw [w.size_eq]
    exact_mod_cast occupied_le h.entries
  have hcap : (0 : ℚ) < (h.Capacity : ℚ) := by
    have := w.params.1
    unfold HashMap.Capacity
    exact_mod_cast this
  refine ⟨w.size_eq, h0, h1, ?_, ?_, ?_⟩
  · unfold HashMap.Load
    apply div_nonneg
    · exact_mod_cast h0
    · exact le_of_lt hcap
  · unfold HashMap.Load
    rw [div_le_one hcap]
    exact_mod_cast h1
  · intro k v h' r hset
    rcases Set_result hset with ⟨hr', heq, hnone, _⟩ | ⟨_, i, hfind, hfree, _, hsz, _⟩ |
        ⟨_, i, hfind, hkey, _, hsz, _⟩
    · rw [heq]
      have hno : ∀ i, h.findEntryOrEmptySlot k ≠ .ok (some i) := by
        intro i hi
        rw [hnone] at hi
        cases hi
      exact ⟨fun i hi _ => absurd hi (hno i), fun i hi _ => absurd hi (hno i), fun _ => rfl⟩
    · refine ⟨fun _ _ _ => hsz, fun j hj hfj => ?_, fun hbad => ?_⟩
      · rw [hfind] at hj
        cases hj
        exact absurd hfj (not_filled_of_free hfree)
      · subst hbad
        have := Set_result hset
        rcases this with ⟨_, _, hnone, _⟩ | ⟨hbad, _⟩ | ⟨hbad, _⟩
        · rw [hfind] at hnone
          cases hnone
        · cases hbad
        · cases hbad
    · refine ⟨fun j hj hfj => ?_, fun _ _ _ => hsz, fun _ => hsz⟩
      rw [hfind] at hj
      cases hj
      exact absurd hkey.filled (not_filled_of_free hfj)

/-- Claim C9. For every `c ≥ 1` (and any draws), `New(c)` returns a table with `Size = 0`
and `Capacity = c` whose `c` slots are all empty and on which `Get(k)` returns nil for
every key `k`. -/
theorem new_table_is_empty (c : Int) (hc : 1 ≤ c) (drawA drawB : Nat) :
    ∃ h : HashMap α, New c drawA drawB = .ok h ∧ h.Size = 0 ∧ (h.Capacity : Int) = c ∧
      (∀ x, x < h.Capacity → FreeAt h.entries x) ∧ ∀ k, h.Get k = .ok none := by
  have hnew : New (α := α) c drawA drawB = .ok
      { entries := List.replicate c.toNat emptyEntry, size := 0, hashP := primeP,
        hashA := u64 (drawA + 1), hashB := u64 drawB } := by
    unfold New
    rw [if_neg (by omega)]
  refine ⟨_, hnew, rfl, ?_, ?_, ?_⟩
  · simp only [HashMap.Capacity, List.length_replicate]
    omega
  · intro x hx
    simp only [HashMap.Capacity, List.length_replicate] at hx
    exact ⟨emptyEntry, by simp [List.getElem?_replicate, hx], rfl⟩
  · intro k
    apply Get_of_absent (WF_new hc hnew).params
    intro p hp
    exact not_filledAt_replicate _ _ hp.filled

/-! ## The statements at the concrete tables -/

theorem not_keyAt_of_forall {es : List (entry α)} {k : Key}
    (hall : ∀ e ∈ es, e.isFilled = true → e.key ≠ k) : ∀ p, ¬ KeyAt es p k := by
  rintro p ⟨e, he, hf, hk⟩
  obtain ⟨hp, rfl⟩ := List.getElem?_eq_some.mp he
  exact hall _ (List.getElem_mem hp) hf hk

theorem table3_no_keyJ : ∀ p, ¬ KeyAt table3.entries p keyJ :=
  not_keyAt_of_forall (by decide)

theorem delete_keeps_other_keys_witness :
    ∃ N h' v, (∀ fuel, N ≤ fuel → table3.Delete fuel keyA = some (.ok (h', v))) ∧
      (∀ k', k' ≠ keyA → ∃ r, table3.Get k' = .ok r ∧ h'.Get k' = .ok r) ∧
      (∀ x k' v', k' ≠ keyA → Holds table3.entries x k' v' → h'.Get k' = .ok v') :=
  delete_keeps_other_keys table3_reachable keyA ⟨1, _, rfl, rfl, rfl⟩

theorem set_then_get_witness : table1.Get keyA = .ok (some 3) :=
  set_then_get table0_reachable keyA (some 3) table1_set

theorem set_false_iff_full_and_new_witness :
    ∃ h' r, table3.Set keyJ (some 6) = .ok (h', r) ∧
      (r = false ↔
        ((∀ x, x < table3.Capacity → FilledAt table3.entries x) ∧
          table3.Size = (table3.Capacity : Int) ∧ ∀ x, ¬ KeyAt table3.entries x keyJ)) ∧
      (r = true ↔ ((∃ x, FreeAt table3.entries x) ∨ ∃ x, KeyAt table3.entries x keyJ)) :=
  set_false_iff_full_and_new table3_reachable keyJ (some 6)

theorem delete_stored_key_witness :
    ∃ N h', (∀ fuel, N ≤ fuel → table3.Delete fuel keyG = some (.ok (h', some 5))) ∧
      h'.Get keyG = .ok none ∧ h'.Size = table3.Size - 1 :=
  delete_stored_key table3_reachable (p := 0) rfl

theorem set_overwrites_stored_key_witness :
    ∃ h', table3.Set keyG (some 6) = .ok (h', true) ∧ h'.Get keyG = .ok (some 6) ∧
      h'.Size = table3.Size :=
  set_overwrites_stored_key table3_reachable (p := 0) ⟨_, rfl, rfl, rfl⟩ (some 6)

theorem absent_key_get_delete_witness :
    table3.Get keyJ = .ok none ∧ ∀ fuel, table3.Delete fuel keyJ = some (.ok (table3, none)) :=
  absent_key_get_delete table3_reachable table3_no_keyJ

theorem set_writes_one_slot_witness :
    (true = true → ∃ i, table0.findEntryOrEmptySlot keyA = .ok (some i) ∧ i < table0.Capacity ∧
        Holds table1.entries i keyA (some 3) ∧
        (∀ x, x ≠ i → table1.entries[x]? = table0.entries[x]?) ∧
        table1.Capacity = table0.Capacity ∧ table1.hashA = table0.hashA ∧
        table1.hashB = table0.hashB ∧ table1.hashP = table0.hashP) ∧
    (true = false → table1 = table0 ∧ table1.Size = table0.Size) :=
  set_writes_one_slot table1_set

theorem size_counts_occupied_witness :
    table3.Size = (occupied table3.entries : Int) ∧ 0 ≤ table3.Size ∧
      table3.Size ≤ (table3.Capacity : Int) ∧ 0 ≤ table3.Load ∧ table3.Load ≤ 1 ∧
      ∀ k v h' r, table3.Set k v = .ok (h', r) →
        (∀ i, table3.findEntryOrEmptySlot k = .ok (some i) → FreeAt table3.entries i →
          h'.Size = table3.Size + 1) ∧
        (∀ i, table3.findEntryOrEmptySlot k = .ok (some i) → FilledAt table3.entries i →
          h'.Size = table3.Size) ∧
        (r = false → h'.Size = table3.Size) :=
  size_counts_occupied table3_reachable

theorem new_table_is_empty_witness :
    ∃ h : HashMap Nat, New 3 0 0 = .ok h ∧ h.Size = 0 ∧ (h.Capacity : Int) = 3 ∧
      (∀ x, x < h.Capacity → FreeAt h.entries x) ∧ ∀ k, h.Get k = .ok none :=
  new_table_is_empty 3 (by decide) 0 0

/-! ## Refinement of a bounded finite map -/

/-- The stored key/value pairs after a `Set` that returned true. -/
theorem Set_contents {h h' : HashMap α} {k : Key} {v : Option α} (w : WF h)
    (hset : h.Set k v = .ok (h', true)) (k' : Key) (v' : Option α) :
    (∃ p, Holds h'.entries p k' v') ↔
      (k' = k ∧ v' = v) ∨ (k' ≠ k ∧ ∃ p, Holds h.entries p k' v') := by
  have key : ∃ i, i < h.entries.length ∧
      h'.entries = h.entries.set i { isFilled := true, key := k, value := v } ∧
      (∀ p v0, Holds h.entries p k v0 → p = i) ∧
      (∀ p k0 v0, k0 ≠ k → Holds h.entries p k0 v0 → p ≠ i) := by
    rcases Set_result hset with ⟨hr, _⟩ | ⟨_, i, hfind, hfree, hent, _, _⟩ |
        ⟨_, i, _, hkey, hent, _, _⟩
    · cases hr
    · have hi : i < h.entries.length := by
        obtain ⟨e, he, _⟩ := hfree
        exact (List.getElem?_eq_some.mp he).1
      refine ⟨i, hi, hent, ?_, ?_⟩
      · intro p v0 hp
        have := w.find hp.keyAt
        rw [hfind] at this
        cases this
        rfl
      · rintro p k0 v0 _ hp rfl
        exact not_filled_of_free hfree hp.keyAt.filled
    · refine ⟨i, hkey.filled.lt, hent, ?_, ?_⟩
      · intro p v0 hp
        exact w.nodup _ _ _ hp.keyAt hkey
      · rintro p k0 v0 hne hp rfl
        exact hne (hp.keyAt.unique hkey)
  obtain ⟨i, hi, hent, hsame, hother⟩ := key
  rw [hent]
  constructor
  · rintro ⟨p, hp⟩
    rcases holds_set.mp hp with ⟨_, _, heq⟩ | ⟨hpi, hp'⟩
    · simp only [entry.mk.injEq, true_and] at heq
      exact Or.inl ⟨heq.1.symm, heq.2.symm⟩
    · right
      refine ⟨?_, p, hp'⟩
      rintro rfl
      exact hpi (hsame p v' hp')
  · rintro (⟨rfl, rfl⟩ | ⟨hne, p, hp⟩)
    · exact ⟨i, holds_set.mpr (Or.inl ⟨rfl, hi, rfl⟩)⟩
    · exact ⟨p, holds_set.mpr (Or.inr ⟨hother p k' v' hne hp, hp⟩)⟩

theorem Abs.mem_iff {h : HashMap α} {m : RefMap α} (a : Abs h m) (k : Key) :
    k ∈ m.keys ↔ ∃ p, KeyAt h.entries p k := by
  constructor
  · intro hk
    obtain ⟨p, hp⟩ := (a.contents k (m.val k)).mpr ⟨hk, rfl⟩
    exact ⟨p, hp.keyAt⟩
  · rintro ⟨p, hp⟩
    obtain ⟨v, hv⟩ := hp.holds
    exact ((a.contents k v).mp ⟨p, hv⟩).1

theorem Abs.get {h : HashMap α} {m : RefMap α} (a : Abs h m) (k : Key) :
    h.Get k = .ok (m.Get k) := by
  unfold RefMap.Get
  by_cases hk : k ∈ m.keys
  · rw [if_pos hk]
    obtain ⟨p, hp⟩ := (a.contents k (m.val k)).mpr ⟨hk, rfl⟩
    exact Get_of_holds a.wf hp
  · rw [if_neg hk]
    apply Get_of_absent a.wf.params
    intro p hp
    exact hk ((a.mem_iff k).mpr ⟨p, hp⟩)

theorem Abs.set {h : HashMap α} {m : RefMap α} (a : Abs h m) (k : Key) (v : Option α) :
    ∃ h', h.Set k v = .ok (h', (m.Set k v).2) ∧ Abs h' (m.Set k v).1 := by
  have w := a.wf
  obtain ⟨h', r, hset⟩ := Set_returns w.params k v
  rcases Set_result hset with ⟨hr, heq, _, hall⟩ | ⟨hr, i, hfind, hfree, _, hsz, _⟩ |
      ⟨hr, i, _, hkey, _, hsz, _⟩
  · subst hr
    have hnew : k ∉ m.keys := by
      intro hk
      obtain ⟨p, hp⟩ := (a.mem_iff k).mp hk
      exact (hall p hp.filled.lt).2 hp
    have hfull : m.keys.card = m.bound := by
      have h1 : occupied h.entries = h.entries.length :=
        (occupied_eq_length_iff _).mpr (fun x hx => (hall x hx).1)
      have h2 := a.size_eq
      rw [w.size_eq, h1] at h2
      rw [a.bound_eq]
      exact_mod_cast h2.symm
    have href : m.Set k v = (m, false) := by
      unfold RefMap.Set
      rw [if_pos ⟨hnew, hfull⟩]
    rw [href, heq] at *
    exact ⟨h, hset, a⟩
  · subst hr
    have hnew : k ∉ m.keys := by
      intro hk
      obtain ⟨p, hp⟩ := (a.mem_iff k).mp hk
      have h1 := w.find hp
      rw [hfind] at h1
      cases h1
      exact not_filled_of_free hfree hp.filled
    have hroom : m.keys.card ≠ m.bound := by
      intro hfull
      have h2 := a.size_eq
      rw [w.size_eq, hfull, a.bound_eq] at h2
      have h3 : occupied h.entries = h.entries.length := by exact_mod_cast h2
      have hi : i < h.entries.length := by
        obtain ⟨e, he, _⟩ := hfree
        exact (List.getElem?_eq_some.mp he).1
      exact not_filled_of_free hfree ((occupied_eq_length_iff _).mp h3 i hi)
    have href : m.Set k v
        = ({ m with keys := insert k m.keys, val := Function.update m.val k v }, true) := by
      unfold RefMap.Set
      rw [if_neg (fun hc => hroom hc.2)]
    rw [href]
    refine ⟨h', hset, WF_set w hset, ?_, ?_, ?_⟩
    · show m.bound = h'.entries.length
      rw [(Set_sameHash hset).2.2.2]
      exact a.bound_eq
    · show h'.size = ((insert k m.keys).card : Int)
      rw [hsz, a.size_eq, Finset.card_insert_of_not_mem hnew]
      push_cast
      rfl
    · intro k' v'
      rw [Set_contents w hset]
      show _ ↔ (k' ∈ insert k m.keys ∧ Function.update m.val k v k' = v')
      by_cases hk' : k' = k
      · subst hk'
        simp [eq_comm]
      · simp [hk', a.contents]
  · subst hr
    have hold : k ∈ m.keys := (a.mem_iff k).mpr ⟨i, hkey⟩
    have href : m.Set k v
        = ({ m with keys := insert k m.keys, val := Function.update m.val k v }, true) := by
      unfold RefMap.Set
      rw [if_neg (fun hc => hc.1 hold)]
    rw [href]
    refine ⟨h', hset, WF_set w hset, ?_, ?_, ?_⟩
    · show m.bound = h'.entries.length
      rw [(Set_sameHash hset).2.2.2]
      exact a.bound_eq
    · show h'.size = ((insert k m.keys).card : Int)
      rw [hsz, a.size_eq, Finset.insert_eq_of_mem hold]
    · intro k' v'
      rw [Set_contents w hset]
      show _ ↔ (k' ∈ insert k m.keys ∧ Function.update m.val k v k' = v')
      by_cases hk' : k' = k
      · subst hk'
        simp [eq_comm]
      · simp [hk', a.contents]

theorem Abs.delete {h : HashMap α} {m : RefMap α} (a : Abs h m) (k : Key) :
    ∃ N h', (∀ fuel, N ≤ fuel → h.Delete fuel k = some (.ok (h', (m.Delete k).2))) ∧
      Abs h' (m.Delete k).1 := by
  have w := a.wf
  by_cases hk : k ∈ m.keys
  · obtain ⟨p, hp⟩ := (a.contents k (m.val k)).mpr ⟨hk, rfl⟩
    obtain ⟨N, h', hrun, _, hwf, hsame, hsz, hcont⟩ := Delete_found w hp
    have hval : (m.Delete k).2 = m.val k := by
      simp [RefMap.Delete, RefMap.Get, hk]
    rw [hval]
    refine ⟨N, h', hrun, hwf, ?_, ?_, ?_⟩
    · show m.bound = h'.entries.length
      rw [hsame.2.2.2]
      exact a.bound_eq
    · show h'.size = ((m.keys.erase k).card : Int)
      have hpos : 0 < m.keys.card := Finset.card_pos.mpr ⟨k, hk⟩
      rw [hsz, a.size_eq, Finset.card_erase_of_mem hk]
      omega
    · intro k' v'
      rw [hcont, a.contents]
      show _ ↔ (k' ∈ m.keys.erase k ∧ m.val k' = v')
      rw [Finset.mem_erase]
      tauto
  · have habs : ∀ p, ¬ KeyAt h.entries p k := fun p hp => hk ((a.mem_iff k).mpr ⟨p, hp⟩)
    have href : m.Delete k = (m, none) := by
      unfold RefMap.Delete RefMap.Get
      rw [if_neg hk, Finset.erase_eq_of_not_mem hk]
    rw [href]
    exact ⟨0, h, fun fuel _ => Delete_of_absent w.params habs fuel, a⟩

/-- One call on the table and the same call on the reference map return the same result
and lead to related states. -/
theorem Abs.call {h : HashMap α} {m : RefMap α} (a : Abs h m) (op : Op α) :
    ∃ N h', (∀ fuel, N ≤ fuel → h.call fuel op = some (.ok (h', (m.call op).2))) ∧
      Abs h' (m.call op).1 := by
  cases op with
  | set k v =>
    obtain ⟨h', hset, a'⟩ := a.set k v
    refine ⟨0, h', fun fuel _ => ?_, a'⟩
    simp [HashMap.call, RefMap.call, hset, Except.map]
  | get k =>
    refine ⟨0, h, fun fuel _ => ?_, a⟩
    simp [HashMap.call, RefMap.call, a.get k, Except.map]
  | delete k =>
    obtain ⟨N, h', hdel, a'⟩ := a.delete k
    refine ⟨N, h', fun fuel hfuel => ?_, a'⟩
    simp [HashMap.call, RefMap.call, hdel fuel hfuel, Except.map]
  | size =>
    refine ⟨0, h, fun fuel _ => ?_, a⟩
    simp [HashMap.call, RefMap.call, HashMap.Size, RefMap.Size, a.size_eq]

theorem Abs.run {h : HashMap α} {m : RefMap α} (a : Abs h m) (ops : List (Op α)) :
    ∃ N, ∀ fuel, N ≤ fuel → h.run fuel ops = some (.ok (m.run ops)) := by
  induction ops generalizing h m with
  | nil => exact ⟨0, fun _ _ => rfl⟩
  | cons op ops ih =>
    obtain ⟨N1, h', hcall, a'⟩ := a.call op
    obtain ⟨N2, hrun⟩ := ih a'
    refine ⟨max N1 N2, fun fuel hfuel => ?_⟩
    have h1 := hcall fuel (le_trans (Nat.le_max_left _ _) hfuel)
    have h2 := hrun fuel (le_trans (Nat.le_max_right _ _) hfuel)
    simp [HashMap.run, RefMap.run, h1, h2]

theorem Abs.new {c : Int} {a b : Nat} {h : HashMap α} (hc : 1 ≤ c)
    (hnew : New c a b = .ok h) : Abs h (RefMap.empty c.toNat) := by
  have w := WF_new hc hnew
  have heq := New_eq (by omega) hnew
  refine ⟨w, ?_, ?_, ?_⟩
  · rw [heq]
    simp [RefMap.empty]
  · rw [heq]
    simp [RefMap.empty]
  · intro k v
    constructor
    · rintro ⟨p, hp⟩
      rw [heq] at hp
      exact absurd hp.keyAt.filled (not_filledAt_replicate _ _)
    · rintro ⟨hk, _⟩
      simp [RefMap.empty] at hk

/-- Claim C10. For every `c ≥ 1`, whatever the two random draws (hence for every `hashA`
in `[1, P)` and `hashB` in `[0, P)`), and every finite sequence of `Set`, `Get`, `Delete`
and `Size` calls applied to `New(c)`: the calls all return, and the list of their results is
the list of results of the same calls on the reference map bounded at `c` entries. The
right-hand side does not mention the draws, so the results do not depend on them. -/
theorem refines_bounded_map (c : Int) (hc : 1 ≤ c) (drawA drawB : Nat)
    (ops : List (Op α)) :
    ∃ h0 : HashMap α, New c drawA drawB = .ok h0 ∧
      ∃ N, ∀ fuel, N ≤ fuel →
        h0.run fuel ops = some (.ok ((RefMap.empty c.toNat).run ops)) := by
  obtain ⟨h0, hnew⟩ := (New_returns c (by omega) drawA drawB : ∃ h : HashMap α, _)
  exact ⟨h0, hnew, (Abs.new hc hnew).run ops⟩

theorem refines_bounded_map_witness :
    ∃ h0 : HashMap Nat, New 3 0 0 = .ok h0 ∧
      ∃ N, ∀ fuel, N ≤ fuel →
        h0.run fuel fullTableCalls
          = some (.ok ((RefMap.empty (Int.toNat 3)).run fullTableCalls)) :=
  refines_bounded_map 3 (by decide) 0 0 fullTableCalls

/-- The results of the call sequence of `TestSetFullHashmap` on the table, as the test
expects them. -/
theorem fullTableCalls_results :
    table0.run 4 fullTableCalls
      = some (.ok [.bool true, .bool true, .bool true, .bool false, .bool true,
          .value (some 6), .bool true, .value (some 3), .value (some 4), .value (some 6),
          .int 3]) := by
  decide!

/-! ## The hash function: numeric facts -/

theorem oddTrial_sound (n : Nat) :
    ∀ k, oddTrial n k = true → ∀ j, j < k → ¬ (2 * j + 3) ∣ n := by
  intro k
  induction k with
  | zero => intro _ j hj; omega
  | succ k ih =>
    intro h j hj
    simp only [oddTrial, Bool.and_eq_true, bne_iff_ne, ne_eq] at h
    by_cases hjk : j = k
    · subst hjk
      intro hd
      exact h.1 (Nat.mod_eq_zero_of_dvd hd)
    · exact ih h.2 j (by omega)

theorem primeP_oddTrial : oddTrial primeP 35751 = true := by decide!

theorem primeP_prime : Nat.Prime primeP := by
  rw [Nat.prime_def_le_sqrt]
  refine ⟨by decide, ?_⟩
  intro m hm2 hms hdvd
  have hmm : m * m ≤ primeP := Nat.le_sqrt.mp hms
  have hlt : m < 71504 := by
    by_contra hge
    have h1 : 71504 ≤ m := by omega
    have h2 : 71504 * 71504 ≤ m * m := Nat.mul_le_mul h1 h1
    have h3 : primeP < 71504 * 71504 := by decide
    omega
  rcases Nat.even_or_odd m with ⟨t, ht⟩ | ⟨t, ht⟩
  · have h2 : 2 ∣ primeP := Nat.dvd_trans ⟨t, by omega⟩ hdvd
    have h3 : primeP % 2 = 1 := by decide
    omega
  · have hj : 2 * (t - 1) + 3 = m := by omega
    have := oddTrial_sound primeP 35751 primeP_oddTrial (t - 1) (by omega)
    rw [hj] at this
    exact this hdvd

/-- Claim C20. The modulus `5112733757` that `New` stores in `hashP` of every table is a
prime number. -/
theorem hashP_is_prime (α : Type) :
    primeP = 5112733757 ∧ Nat.Prime primeP ∧
      ∀ (c : Int) (drawA drawB : Nat) (h : HashMap α),
        New c drawA drawB = .ok h → h.hashP = primeP ∧ Nat.Prime h.hashP := by
  refine ⟨rfl, primeP_prime, ?_⟩
  intro c a b h hnew
  unfold New at hnew
  split_ifs at hnew
  cases hnew
  exact ⟨rfl, primeP_prime⟩

theorem hashP_is_prime_witness : table0.hashP = primeP ∧ Nat.Prime table0.hashP :=
  (hashP_is_prime Nat).2.2 3 0 0 table0 table0_new

/-- One step of the fold loop, started below `primeP`, neither wraps nor leaves the range
below `primeP`. -/
theorem fold_step (acc : Nat) (char : Fin 256) (hacc : acc < primeP) :
    u64 (u64 (acc * 256) + char.val) % primeP = (acc * 256 + char.val) % primeP ∧
      acc * 256 + char.val < 2 ^ 64 := by
  have hc := char.isLt
  have hP : primeP = 5112733757 := rfl
  have hb : acc * 256 + char.val < 2 ^ 64 := by
    rw [hP] at hacc
    norm_num
    omega
  have h1 : u64 (acc * 256) = acc * 256 := by
    unfold u64
    apply Nat.mod_eq_of_lt
    omega
  have h2 : u64 (acc * 256 + char.val) = acc * 256 + char.val := Nat.mod_eq_of_lt hb
  rw [h1, h2]
  exact ⟨rfl, hb⟩

theorem foldl_hash_lt (input : Key) :
    ∀ acc, acc < primeP →
      input.foldl (fun sum char => u64 (u64 (sum * 256) + char.val) % primeP) acc < primeP := by
  induction input with
  | nil => intro acc hacc; exact hacc
  | cons c t ih =>
    intro acc _
    simp only [List.foldl_cons]
    exact ih _ (Nat.mod_lt _ (by decide))

theorem hashFold_lt (input : Key) : hashFold primeP input < primeP :=
  foldl_hash_lt input 0 (by decide)

theorem foldl_hash_eq (input : Key) :
    ∀ acc,
      input.foldl (fun sum char => u64 (u64 (sum * 256) + char.val) % primeP) (acc % primeP)
        = input.foldl (fun acc char => acc * 256 + char.val) acc % primeP := by
  induction input with
  | nil => intro acc; rfl
  | cons c t ih =>
    intro acc
    simp only [List.foldl_cons]
    have hmod : (acc % primeP * 256 + c.val) % primeP = (acc * 256 + c.val) % primeP := by
      simp only [primeP]
      omega
    rw [(fold_step (acc % primeP) c (Nat.mod_lt _ (by decide))).1, hmod]
    exact ih _

/-- Claim C15. For every key, the fold loop of `hash` with the modulus `P = 5112733757`
ends with the key's bytes read as a big-endian base-256 numeral reduced modulo `P`, and at
every byte the intermediate value `sum * 256 + byte` is below `2 ^ 64`. -/
theorem fold_is_numeral_mod_P (input : Key) :
    hashFold primeP input = bigEndian input % primeP ∧
      ∀ (pre : Key) (char : Fin 256) (post : Key), input = pre ++ char :: post →
        hashFold primeP pre * 256 + char.val < 2 ^ 64 ∧
          hashFold primeP (pre ++ [char]) = (hashFold primeP pre * 256 + char.val) % primeP := by
  constructor
  · unfold hashFold bigEndian
    have h0 : (0 : Nat) = 0 % primeP := (Nat.zero_mod primeP).symm
    conv_lhs => rw [h0]
    exact foldl_hash_eq input 0
  · intro pre char post _
    have hstep := fold_step (hashFold primeP pre) char (hashFold_lt pre)
    refine ⟨hstep.2, ?_⟩
    unfold hashFold at hstep ⊢
    rw [List.foldl_append]
    simp only [List.foldl_cons, List.foldl_nil]
    exact hstep.1

theorem fold_is_numeral_mod_P_witness :
    hashFold primeP keyFF = bigEndian keyFF % primeP ∧
      ∀ (pre : Key) (char : Fin 256) (post : Key), keyFF = pre ++ char :: post →
        hashFold primeP pre * 256 + char.val < 2 ^ 64 ∧
          hashFold primeP (pre ++ [char]) = (hashFold primeP pre * 256 + char.val) % primeP :=
  fold_is_numeral_mod_P keyFF

theorem tableWrap_new : New 3 5112733755 0 = .ok tableWrap := rfl

/-- Claim C14, evaluated at a failing input: on the table `New(3)` with `hashA = P - 1` and
`hashB = 0` the key `"\xff\xff\xff\xff"` folds to `x = 4294967295`; the product `x * hashA`
exceeds `2 ^ 64`, `hash` returns index `1`, and the formula over the unbounded naturals
gives index `2`. -/
theorem hash_wraps_at_keyFF :
    New 3 5112733755 0 = .ok tableWrap ∧ 5112733755 < primeP - 1 ∧
      1 ≤ tableWrap.hashA ∧ tableWrap.hashA < primeP ∧ tableWrap.hashB < primeP ∧
      hashFold tableWrap.hashP keyFF = 4294967295 ∧
      2 ^ 64 ≤ hashFold tableWrap.hashP keyFF * tableWrap.hashA ∧
      tableWrap.hash keyFF = .ok 1 ∧ exactIndex tableWrap keyFF = 2 := by
  refine ⟨rfl, by decide, by decide, by decide, by decide, by decide, by decide, rfl, by decide⟩

/-! ## Capacity zero, frames and runtime faults -/

theorem hash_cap_zero {h : HashMap α} (hcap : h.Capacity = 0) (k : Key) :
    h.hash k = .error .divideByZero := by
  unfold HashMap.hash
  split_ifs <;> rfl

/-- General form of the failing input of the next theorem: on the table that `New(0)`
returns, whatever the draws, `hash` divides by zero for every key, so that no `Set`, `Get` or
`Delete` returns the `false` or `nil` announced by its doc comment. -/
theorem capacity_zero_operations_panic (drawA drawB : Nat) (k : Key) (v : Option α)
    (fuel : Nat) :
    ∃ h : HashMap α, New 0 drawA drawB = .ok h ∧ h.Capacity = 0 ∧
      h.hash k = .error .divideByZero ∧
      h.Set k v = .error .divideByZero ∧
      h.Get k = .error .divideByZero ∧
      h.Delete fuel k = some (.error .divideByZero) := by
  refine ⟨_, rfl, ?_, ?_, ?_, ?_, ?_⟩
  · simp [HashMap.Capacity]
  · exact hash_cap_zero (by simp [HashMap.Capacity]) k
  · simp [HashMap.Set, HashMap.findEntryOrEmptySlot, hash_cap_zero, HashMap.Capacity]
  · simp [HashMap.Get, HashMap.findEntryOrEmptySlot, hash_cap_zero, HashMap.Capacity]
  · simp [HashMap.Delete, HashMap.findEntryOrEmptySlot, hash_cap_zero, HashMap.Capacity]

/-- Claim C16, the code evaluated at a failing input. `New(0)` returns a table of capacity
0, and on it `Set("a", 1)`, `Get("a")` and `Delete("a")` each panic with the integer division
by zero of `sum % uint64(h.Capacity())` in `hash`, where the claim, the doc comments of `Set`,
`Get` and `Delete`, and the path `return nil, -1` of the probe search for a table without a
free slot, say that `Set` returns false and `Get` and `Delete` return nil. -/
theorem capacity_zero_calls_panic :
    New 0 0 0 = .ok tableZero ∧ tableZero.Capacity = 0 ∧
      tableZero.hash keyA = .error .divideByZero ∧
      tableZero.Set keyA (some 1) = .error .divideByZero ∧
      tableZero.Get keyA = .error .divideByZero ∧
      tableZero.Delete 0 keyA = some (.error .divideByZero) ∧
      tableZero.Set keyA (some 1) ≠ .ok (tableZero, false) ∧
      tableZero.Get keyA ≠ .ok none ∧
      tableZero.Delete 0 keyA ≠ some (.ok (tableZero, none)) ∧
      findLoop tableZero keyA tableZero.Capacity 0 = .ok none := by
  have hset : tableZero.Set keyA (some 1) = .error .divideByZero := rfl
  have hget : tableZero.Get keyA = .error .divideByZero := rfl
  have hdel : tableZero.Delete 0 keyA = some (.error .divideByZero) := rfl
  refine ⟨rfl, rfl, rfl, hset, hget, hdel, ?_, ?_, ?_, rfl⟩
  · rw [hset]
    intro h
    cases h
  · rw [hget]
    intro h
    cases h
  · rw [hdel]
    intro h
    cases h

/-- Claim C17. In a reachable table, for distinct keys `k` and `k'`, `Set(k, v)` returns, and
whether it returns true or false, `Get(k')` on the resulting table returns what it returned
before. -/
theorem set_keeps_other_keys {h : HashMap α} (hr : Reachable h) (k k' : Key)
    (hne : k' ≠ k) (v : Option α) :
    ∃ h' r, h.Set k v = .ok (h', r) ∧ ∃ g, h.Get k' = .ok g ∧ h'.Get k' = .ok g := by
  have w := hr.wf
  obtain ⟨h', r, hset⟩ := Set_returns w.params k v
  refine ⟨h', r, hset, ?_⟩
  cases r with
  | false =>
    rcases Set_result hset with ⟨_, heq, _, _⟩ | ⟨hbad, _⟩ | ⟨hbad, _⟩
    · rw [heq]
      exact Get_congr w w k' (fun _ => Iff.rfl)
    · cases hbad
    · cases hbad
  | true =>
    apply Get_congr w (WF_set w hset) k'
    intro v'
    rw [Set_contents w hset]
    constructor
    · rintro (⟨hk, _⟩ | ⟨_, hx⟩)
      · exact absurd hk hne
      · exact hx
    · exact fun hx => Or.inr ⟨hne, hx⟩

theorem set_keeps_other_keys_witness :
    ∃ h' r, table3.Set keyG (some 6) = .ok (h', r) ∧
      ∃ g, table3.Get keyA = .ok g ∧ h'.Get keyA = .ok g :=
  set_keeps_other_keys table3_reachable keyG keyA (by decide) (some 6)

/-- On a table with `Params` the repair walk never panics, whatever the slots hold. -/
theorem rehashLoop_no_fault :
    ∀ (fuel : Nat) (h : HashMap α) (j : Nat), Params h → j < h.entries.length →
      ∀ f, rehashLoop fuel h j ≠ some (.error f) := by
  intro fuel
  induction fuel with
  | zero =>
    intro h j _ hj f
    obtain ⟨e, he⟩ := slot_exists hj
    cases hf : e.isFilled with
    | false =>
      rw [rehashLoop_free _ ⟨e, he, hf⟩]
      simp
    | true =>
      rw [rehashLoop_filled_zero he hf]
      simp
  | succ fuel ih =>
    intro h j hp hj f
    obtain ⟨e, he⟩ := slot_exists hj
    cases hf : e.isFilled with
    | false =>
      rw [rehashLoop_free _ ⟨e, he, hf⟩]
      simp
    | true =>
      have hp1 : Params ({ h with entries := h.entries.set j emptyEntry, size := h.size - 1 } :
          HashMap α) := ⟨by simpa using hp.1, hp.2⟩
      obtain ⟨h2, r, hset⟩ := Set_returns hp1 e.key e.value
      have hsame := Set_sameHash hset
      have hp2 := hsame.params hp1
      have hcap : h2.Capacity ≠ 0 := Nat.pos_iff_ne_zero.mp hp2.1
      rw [rehashLoop_filled fuel he hf hset hcap]
      exact ih h2 _ hp2 (Nat.mod_lt _ hp2.1) f

/-- Claim C19. On every table with capacity at least 1 (and the nonzero modulus that `New`
stores in every table), for every key: `hash` returns an index below `Capacity`; the probe
search returns without a panic, and a slot it returns has an index below `Capacity`; `Set`
and `Get` return without a panic; and `Delete`, its repair walk included, never panics, so
no operation divides by zero or indexes the slot array out of range. -/
theorem no_runtime_fault (h : HashMap α) (hcap : 1 ≤ h.Capacity) (hP : h.hashP ≠ 0)
    (key : Key) (value : Option α) (fuel : Nat) :
    (∃ i, h.hash key = .ok i ∧ i < h.Capacity) ∧
      (∃ r, h.findEntryOrEmptySlot key = .ok r ∧ ∀ i, r = some i → i < h.Capacity) ∧
      (∃ r, h.Set key value = .ok r) ∧
      (∃ r, h.Get key = .ok r) ∧
      (∀ f, h.Delete fuel key ≠ some (.error f)) := by
  have hp : Params h := ⟨hcap, hP⟩
  have hfind : ∃ r, h.findEntryOrEmptySlot key = .ok r ∧
      ∀ i, r = some i → i < h.entries.length ∧ ∃ e, h.entries[i]? = some e := by
    rcases find_cases hp key with ⟨q, hq, hql, _, _⟩ | ⟨hq, _⟩
    · refine ⟨some q, hq, ?_⟩
      intro i hi
      cases hi
      exact ⟨hql, slot_exists hql⟩
    · exact ⟨none, hq, fun i hi => by cases hi⟩
  refine ⟨⟨hashIndex h key, hash_ok hp key, hashIndex_lt hp key⟩, ?_, ?_, ?_, ?_⟩
  · obtain ⟨r, hr, hi⟩ := hfind
    exact ⟨r, hr, fun i hri => (hi i hri).1⟩
  · obtain ⟨h', r, hset⟩ := Set_returns hp key value
    exact ⟨_, hset⟩
  · obtain ⟨r, hr, hi⟩ := hfind
    cases r with
    | none => exact ⟨none, by simp [HashMap.Get, hr]⟩
    | some i =>
      obtain ⟨_, e, he⟩ := hi i rfl
      cases hf : e.isFilled with
      | false => exact ⟨none, by simp [HashMap.Get, hr, he, hf]⟩
      | true => exact ⟨e.value, by simp [HashMap.Get, hr, he, hf]⟩
  · intro f
    obtain ⟨r, hr, hi⟩ := hfind
    cases r with
    | none => simp [HashMap.Delete, hr]
    | some i =>
      obtain ⟨hil, e, he⟩ := hi i rfl
      cases hf : e.isFilled with
      | false => simp [HashMap.Delete, hr, he, hf]
      | true =>
        have hp1 : Params ({ h with entries := h.entries.set i emptyEntry, size := h.size - 1 } :
            HashMap α) := ⟨by simpa using hp.1, hp.2⟩
        have hne : h.entries.length ≠ 0 := Nat.pos_iff_ne_zero.mp hp.1
        have hwalk := rehashLoop_no_fault fuel _ ((i + 1) % h.entries.length) hp1
          (by simpa using Nat.mod_lt _ hp.1)
        simp only [HashMap.Delete, hr, he, hf, HashMap.Capacity, List.length_set, hne,
          if_false, Bool.not_true, Bool.false_eq_true]
        cases hres : rehashLoop fuel
            { h with entries := h.entries.set i emptyEntry, size := h.size - 1 }
            ((i + 1) % h.entries.length) with
        | none => simp
        | some r0 =>
          cases r0 with
          | error f0 => exact absurd hres (hwalk f0)
          | ok h2 => simp

theorem no_runtime_fault_witness :
    (∃ i, table3.hash keyA = .ok i ∧ i < table3.Capacity) ∧
      (∃ r, table3.findEntryOrEmptySlot keyA = .ok r ∧ ∀ i, r = some i → i < table3.Capacity) ∧
      (∃ r, table3.Set keyA (some 7) = .ok r) ∧
      (∃ r, table3.Get keyA = .ok r) ∧
      (∀ f, table3.Delete 4 keyA ≠ some (.error f)) :=
  no_runtime_fault table3 (by decide) (by decide) keyA (some 7) 4

/-! ## The probe-chain invariant, termination of `Delete` and the repair walk -/

theorem WF.chainFilled {h : HashMap α} (w : WF h) : ChainFilled h := by
  intro p k hk x hx hle
  rcases Nat.lt_or_eq_of_le hle with hlt | heq
  · exact w.path p k hk x hx hlt
  · have := cdist_inj (hashIndex_lt w.params k) hx hk.filled.lt heq
    rw [this]
    exact hk.filled

/-- Claim C11. In every reachable table, for every occupied slot `p` holding key `k`, every
slot on the cyclic forward path from `hash(k)` up to and including `p` is occupied. `New(c)`
with `c ≥ 1` establishes the predicate, and from a reachable table every `Set` and every
`Delete` that returns leads to a table that satisfies it. -/
theorem chain_filled_invariant {h : HashMap α} (hr : Reachable h) :
    ChainFilled h ∧
      (∀ (c : Int) (drawA drawB : Nat) (h0 : HashMap α), 1 ≤ c →
        New c drawA drawB = .ok h0 → ChainFilled h0) ∧
      (∀ k v h' r, h.Set k v = .ok (h', r) → ChainFilled h') ∧
      (∀ fuel k h' r, h.Delete fuel k = some (.ok (h', r)) → ChainFilled h') :=
  ⟨hr.wf.chainFilled,
    fun _ _ _ _ hc hnew => (WF_new hc hnew).chainFilled,
    fun _ _ _ _ hset => (WF_set hr.wf hset).chainFilled,
    fun _ _ _ _ hdel => (WF_delete hr.wf hdel).chainFilled⟩

theorem chain_filled_invariant_witness :
    ChainFilled table3 ∧
      (∀ (c : Int) (drawA drawB : Nat) (h0 : HashMap Nat), 1 ≤ c →
        New c drawA drawB = .ok h0 → ChainFilled h0) ∧
      (∀ k v h' r, table3.Set k v = .ok (h', r) → ChainFilled h') ∧
      (∀ fuel k h' r, table3.Delete fuel k = some (.ok (h', r)) → ChainFilled h') :=
  chain_filled_invariant table3_reachable

/-- Claim C12. In every reachable table, full or not, and for every key, `Delete` terminates:
from some amount of fuel on it returns, always with the same table and value; its repair
walk has then stopped at an empty slot. -/
theorem delete_terminates {h : HashMap α} (hr : Reachable h) (k : Key) :
    ∃ N h' v, ∀ fuel, N ≤ fuel → h.Delete fuel k = some (.ok (h', v)) := by
  have w := hr.wf
  by_cases hk : ∃ p, KeyAt h.entries p k
  · obtain ⟨p, hk⟩ := hk
    obtain ⟨v, hh⟩ := hk.holds
    obtain ⟨N, h', hrun, _⟩ := Delete_found w hh
    exact ⟨N, h', v, hrun⟩
  · exact ⟨0, h, none, fun fuel _ =>
      Delete_of_absent w.params (fun p hp => hk ⟨p, hp⟩) fuel⟩

theorem delete_terminates_witness :
    ∃ N h' v, ∀ fuel, N ≤ fuel → table3.Delete fuel keyA = some (.ok (h', v)) :=
  delete_terminates table3_reachable keyA

/-- The slot in which the `Set` of one iteration of the repair walk lands: it is empty in the
table with slot `j` cleared, it is `j` itself or a slot that was empty before, and it lies on
the probe path of the key no later than `j`. -/
theorem rehash_set_lands {h : HashMap α} {j : Nat} {e : entry α} (li : LoopInv h j)
    (he : h.entries[j]? = some e) (hf : e.isFilled = true) :
    ∃ q, q < h.entries.length ∧
      (h.clearSlot j).findEntryOrEmptySlot e.key = .ok (some q) ∧
      FreeAt (h.clearSlot j).entries q ∧
      (q = j ∨ (q ≠ j ∧ FreeAt h.entries q)) ∧
      cdist h.entries.length (hashIndex h e.key) q
        ≤ cdist h.entries.length (hashIndex h e.key) j ∧
      (∀ x, x < h.entries.length →
        cdist h.entries.length (hashIndex h e.key) x
            < cdist h.entries.length (hashIndex h e.key) q →
          x ≠ j ∧ FilledAt h.entries x) ∧
      (h.clearSlot j).Set e.key e.value = .ok ({ h with
        entries := (h.entries.set j emptyEntry).set q
          { isFilled := true, key := e.key, value := e.value }
        size := h.size - 1 + 1 }, true) := by
  have hj := li.walker
  have hkj : KeyAt h.entries j e.key := ⟨e, he, hf, rfl⟩
  have hp1 : Params (h.clearSlot j) := ⟨by simpa [HashMap.clearSlot] using li.params.1, li.params.2⟩
  have hs1 : SameHash h (h.clearSlot j) := ⟨rfl, rfl, rfl, by simp [HashMap.clearSlot]⟩
  have hfree1 : FreeAt (h.clearSlot j).entries j :=
    freeAt_set.mpr (Or.inl ⟨rfl, hj, rfl⟩)
  rcases Set_cases hp1 e.key e.value with ⟨_, hall, _⟩ | ⟨q, hfind, hfree, hpq, hs⟩ |
      ⟨i, e', _, he', hf', hk', _, _⟩
  · exact absurd (hall j (by simpa [HashMap.clearSlot] using hj)).1 (not_filled_of_free hfree1)
  · have hlen : (h.clearSlot j).entries.length = h.entries.length := by
      simp [HashMap.clearSlot]
    rw [hlen, hs1.hashIndex] at hpq
    have hq : q < h.entries.length := by
      obtain ⟨e1, he1, _⟩ := hfree
      have := (List.getElem?_eq_some.mp he1).1
      rwa [hlen] at this
    have hqcase : q = j ∨ (q ≠ j ∧ FreeAt h.entries q) := by
      rcases freeAt_set.mp hfree with ⟨hqj, _, _⟩ | ⟨hqj, hfq⟩
      · exact Or.inl hqj
      · exact Or.inr ⟨hqj, hfq⟩
    have hpq' : ∀ x, x < h.entries.length →
        cdist h.entries.length (hashIndex h e.key) x
            < cdist h.entries.length (hashIndex h e.key) q →
          x ≠ j ∧ FilledAt h.entries x := by
      intro x hx hlt
      rcases filledAt_set.mp (hpq x hx hlt).1 with ⟨_, _, hbad⟩ | hgood
      · simp [emptyEntry] at hbad
      · exact hgood
    refine ⟨q, hq, hfind, hfree, hqcase, ?_, hpq', hs⟩
    by_contra hgt
    exact (hpq' j hj (Nat.lt_of_not_le hgt)).1 rfl
  · have hki : KeyAt (h.entries.set j emptyEntry) i e.key := ⟨e', he', hf', hk'⟩
    rcases keyAt_set.mp hki with ⟨_, _, hbad, _⟩ | ⟨hij, hki'⟩
    · simp [emptyEntry] at hbad
    · exact absurd (li.nodup i j e.key hki' hkj) hij

/-- The loop invariant holds in every state of the repair walk. -/
theorem WalkReaches.loopInv {h0 h : HashMap α} {j0 j : Nat} (hw : WalkReaches h0 j0 h j)
    (li : LoopInv h0 j0) : LoopInv h j := by
  induction hw with
  | start => exact li
  | step h h2 j e r _ he hf hset ih =>
    obtain ⟨h2', hset', _, _, li2, _⟩ := rehash_step ih he hf
    have heq : (h2, r) = (h2', true) := by
      have := hset.symm.trans hset'
      simpa using this
    cases heq
    exact li2

/-- The states of `WalkReaches` are states of `rehashLoop`: the loop started in `(h0, j0)`
continues as the loop started in any of them. -/
theorem WalkReaches.rehashLoop_eq {h0 h : HashMap α} {j0 j : Nat}
    (hw : WalkReaches h0 j0 h j) (li : LoopInv h0 j0) :
    ∀ fuel, ∃ fuel0, rehashLoop fuel0 h0 j0 = rehashLoop fuel h j := by
  induction hw with
  | start => exact fun fuel => ⟨fuel, rfl⟩
  | step h h2 j e r hw he hf hset ih =>
    intro fuel
    have li' := hw.loopInv li
    have hcap : h2.Capacity ≠ 0 := by
      have := (Set_sameHash hset).params
        (⟨by simpa [HashMap.clearSlot] using li'.params.1, li'.params.2⟩ : Params (h.clearSlot j))
      exact Nat.pos_iff_ne_zero.mp this.1
    obtain ⟨fuel0, h0eq⟩ := ih (fuel + 1)
    exact ⟨fuel0, h0eq.trans (rehashLoop_filled fuel he hf hset hcap)⟩

/-- Claim C18. In every reachable table no two occupied slots hold the same key. In
particular, when `Delete` has found and cleared slot `i` of a reachable table, then in every
state of its repair walk whose current slot `j` is occupied, the `Set` of the entry just
cleared from slot `j` finds an empty slot and returns true. -/
theorem no_duplicate_keys {h : HashMap α} (hr : Reachable h) :
    NoDupKeys h.entries ∧
      ∀ (k : Key) (i : Nat) (bucket : entry α),
        h.findEntryOrEmptySlot k = .ok (some i) → h.entries[i]? = some bucket →
        bucket.isFilled = true →
        ∀ (hw : HashMap α) (j : Nat),
          WalkReaches (h.clearSlot i) ((i + 1) % (h.clearSlot i).Capacity) hw j →
          ∀ e, hw.entries[j]? = some e → e.isFilled = true →
            ∃ q h2, (hw.clearSlot j).findEntryOrEmptySlot e.key = .ok (some q) ∧
              FreeAt (hw.clearSlot j).entries q ∧
              (hw.clearSlot j).Set e.key e.value = .ok (h2, true) := by
  have w := hr.wf
  refine ⟨w.nodup, ?_⟩
  intro k i bucket _ hb hbf hw j hreach e he hf
  have li0 : LoopInv (h.clearSlot i) ((i + 1) % (h.clearSlot i).Capacity) := by
    have := LoopInv_of_clear w (⟨bucket, hb, hbf, rfl⟩ : KeyAt h.entries i bucket.key)
    simpa [HashMap.clearSlot, HashMap.Capacity] using this
  obtain ⟨q, _, hfind, hfree, _, _, _, hset⟩ := rehash_set_lands (hreach.loopInv li0) he hf
  exact ⟨q, _, hfind, hfree, hset⟩

theorem no_duplicate_keys_witness :
    NoDupKeys table3.entries ∧
      ∀ (k : Key) (i : Nat) (bucket : entry Nat),
        table3.findEntryOrEmptySlot k = .ok (some i) → table3.entries[i]? = some bucket →
        bucket.isFilled = true →
        ∀ (hw : HashMap Nat) (j : Nat),
          WalkReaches (table3.clearSlot i) ((i + 1) % (table3.clearSlot i).Capacity) hw j →
          ∀ e, hw.entries[j]? = some e → e.isFilled = true →
            ∃ q h2, (hw.clearSlot j).findEntryOrEmptySlot e.key = .ok (some q) ∧
              FreeAt (hw.clearSlot j).entries q ∧
              (hw.clearSlot j).Set e.key e.value = .ok (h2, true) :=
  no_duplicate_keys table3_reachable

/-! ## How many iterations the repair walk executes -/

theorem seam_of_free {h : HashMap α} (w : WF h) {z : Nat} (hz : FreeAt h.entries z) :
    Seam h := by
  have hzn : z < h.entries.length := by
    obtain ⟨e, he, _⟩ := hz
    exact (List.getElem?_eq_some.mp he).1
  refine ⟨z, hzn, ?_⟩
  intro p k hk _ hlt
  exact not_filled_of_free hz (w.path p k hk z hzn hlt)

theorem exists_free_of_size_lt {h : HashMap α} (w : WF h)
    (hlt : h.size < (h.entries.length : Int)) : ∃ x, FreeAt h.entries x := by
  by_contra hno
  have hall : ∀ x, x < h.entries.length → FilledAt h.entries x := by
    intro x hx
    rcases filled_or_free hx with hf | hf
    · exact hf
    · exact absurd ⟨x, hf⟩ hno
  have := (occupied_eq_length_iff _).mpr hall
  rw [w.size_eq, this] at hlt
  exact lt_irrefl _ hlt

/-- Every reachable table has a seam. -/
theorem Reachable.seam {h : HashMap α} (hr : Reachable h) : Seam h := by
  induction hr with
  | new c a b h hc _ _ hnew =>
    have w := WF_new hc hnew
    obtain ⟨e, he⟩ := slot_exists w.params.1
    refine seam_of_free w (z := 0) ⟨e, he, ?_⟩
    cases hf : e.isFilled with
    | false => rfl
    | true =>
      have heq := New_eq (by omega) hnew
      rw [heq] at he
      exact absurd ⟨e, he, hf⟩ (not_filledAt_replicate _ _)
  | set h h' k v r hr hset ih =>
    have w := hr.wf
    have hsame := Set_sameHash hset
    rcases Set_result hset with ⟨_, heq, _, _⟩ | ⟨_, i, _, hfree, hent, _, _⟩ |
        ⟨_, i, _, hkey, hent, _, _⟩
    · rw [heq]
      exact ih
    · have hi : i < h.entries.length := by
        obtain ⟨e, he, _⟩ := hfree
        exact (List.getElem?_eq_some.mp he).1
      refine ⟨i, by rw [hsame.2.2.2]; exact hi, ?_⟩
      intro p k' hk' hpi
      rw [hsame.2.2.2, hsame.hashIndex]
      rw [hent] at hk'
      rcases keyAt_set.mp hk' with ⟨hbad, _⟩ | ⟨_, hk''⟩
      · exact absurd hbad hpi
      · intro hlt
        exact not_filled_of_free hfree (w.path p k' hk'' i hi hlt)
    · obtain ⟨z, hz, hseam⟩ := ih
      refine ⟨z, by rw [hsame.2.2.2]; exact hz, ?_⟩
      intro p k' hk' hpz
      rw [hsame.2.2.2, hsame.hashIndex]
      rw [hent] at hk'
      rcases keyAt_set.mp hk' with ⟨hpi, _, _, hkk⟩ | ⟨_, hk''⟩
      · have hkk' : k = k' := hkk
        rw [← hkk', hpi]
        rw [hpi] at hpz
        exact hseam i k hkey hpz
      · exact hseam p k' hk'' hpz
  | delete h h' fuel k r hr hdel ih =>
    have w := hr.wf
    by_cases hk : ∃ p, KeyAt h.entries p k
    · obtain ⟨p, hk⟩ := hk
      obtain ⟨v, hh⟩ := hk.holds
      obtain ⟨_, h'', _, huniq, hwf, hsame, hsz, _⟩ := Delete_found w hh
      have := huniq fuel _ hdel
      cases this
      have hlt : h'.size < (h'.entries.length : Int) := by
        rw [hsz, hsame.2.2.2, w.size_eq]
        have := occupied_le h.entries
        omega
      obtain ⟨x, hx⟩ := exists_free_of_size_lt hwf hlt
      exact seam_of_free hwf hx
    · have habs : ∀ p, ¬ KeyAt h.entries p k := fun p hp => hk ⟨p, hp⟩
      rw [Delete_of_absent w.params habs fuel] at hdel
      cases hdel
      exact ih

theorem LoopInv_of_WF {h : HashMap α} (w : WF h) {j g : Nat} (hj : j < h.entries.length)
    (hg : FreeAt h.entries g) : LoopInv h j :=
  ⟨w.params, hj, ⟨g, hg⟩, w.size_eq, w.nodup, fun p k hk => Or.inl (w.path p k hk)⟩

/-- On a well-formed table the repair walk changes nothing: every entry is written back
into its own slot, and the walk stops at the first empty slot. -/
theorem rehashLoop_of_WF :
    ∀ (d : Nat) (h : HashMap α) (j g : Nat), WF h → j < h.entries.length →
      FreeAt h.entries g → cdist h.entries.length j g = d →
      rehashLoop d h j = some (.ok h) := by
  intro d
  induction d with
  | zero =>
    intro h j g _ hj hg hd
    have hgn : g < h.entries.length := by
      obtain ⟨e, he, _⟩ := hg
      exact (List.getElem?_eq_some.mp he).1
    have : g = j := by
      unfold cdist at hd
      split_ifs at hd <;> omega
    rw [this] at hg
    exact rehashLoop_free 0 hg
  | succ d ih =>
    intro h j g w hj hg hd
    have hgn : g < h.entries.length := by
      obtain ⟨e, he, _⟩ := hg
      exact (List.getElem?_eq_some.mp he).1
    rcases filled_or_free hj with ⟨e, he, hf⟩ | hfree
    · obtain ⟨q, hq, _, _, hqcase, _, hpath, hset⟩ :=
        rehash_set_lands (LoopInv_of_WF w hj hg) he hf
      have hqj : q = j := by
        rcases hqcase with hqj | ⟨hqj, hqfree⟩
        · exact hqj
        · exfalso
          have hkj : KeyAt h.entries j e.key := ⟨e, he, hf, rfl⟩
          have hs := hashIndex_lt w.params e.key
          have hlt : cdist h.entries.length (hashIndex h e.key) q
              < cdist h.entries.length (hashIndex h e.key) j := by
            have hle : ¬ cdist h.entries.length (hashIndex h e.key) j
                < cdist h.entries.length (hashIndex h e.key) q :=
              fun hlt => (hpath j hj hlt).1 rfl
            have hne : cdist h.entries.length (hashIndex h e.key) q
                ≠ cdist h.entries.length (hashIndex h e.key) j :=
              fun heq => hqj (cdist_inj hs hq hj heq)
            omega
          exact not_filled_of_free hqfree (w.path j e.key hkj q hq hlt)
      rw [hqj, move_same he hf] at hset
      have hback : ({ h with entries := h.entries, size := h.size - 1 + 1 } : HashMap α) = h := by
        cases h
        simp
      rw [hback] at hset
      have hcap : h.Capacity ≠ 0 := Nat.pos_iff_ne_zero.mp w.params.1
      rw [rehashLoop_filled d he hf hset hcap]
      apply ih h _ g w (Nat.mod_lt _ w.params.1) hg
      rw [succ_mod_eq hj]
      unfold cdist at hd ⊢
      split_ifs at hd ⊢ <;> omega
    · exact rehashLoop_free _ hfree

/-- One iteration of the repair walk, with the slot `q` in which the entry lands. -/
theorem rehash_iter {h : HashMap α} {j : Nat} {e : entry α} (li : LoopInv h j)
    (he : h.entries[j]? = some e) (hf : e.isFilled = true) :
    ∃ q h2, q < h.entries.length ∧
      h2.entries = (h.entries.set j emptyEntry).set q
        { isFilled := true, key := e.key, value := e.value } ∧
      (q = j ∨ (q ≠ j ∧ FreeAt h.entries q)) ∧
      cdist h.entries.length (hashIndex h e.key) q
        ≤ cdist h.entries.length (hashIndex h e.key) j ∧
      (∀ x, x < h.entries.length →
        cdist h.entries.length (hashIndex h e.key) x
            < cdist h.entries.length (hashIndex h e.key) q →
          x ≠ j ∧ FilledAt h.entries x) ∧
      SameHash h h2 ∧ LoopInv h2 ((j + 1) % h.entries.length) ∧
      (q = j → h2 = h) ∧
      ∀ fuel, rehashLoop (fuel + 1) h j = rehashLoop fuel h2 ((j + 1) % h.entries.length) := by
  obtain ⟨q, hq, _, _, hqcase, hle, hpath, hset⟩ := rehash_set_lands li he hf
  obtain ⟨h2', hset', hsame, _, li2, _, _⟩ := rehash_step li he hf
  have heq : h2' = ({ h with
      entries := (h.entries.set j emptyEntry).set q
        { isFilled := true, key := e.key, value := e.value }
      size := h.size - 1 + 1 } : HashMap α) := by
    have h1 : (h.clearSlot j).Set e.key e.value = .ok (h2', true) := hset'
    rw [hset] at h1
    simp only [Except.ok.injEq, Prod.mk.injEq, and_true] at h1
    exact h1.symm
  have hcapeq : h2'.Capacity = h.entries.length := hsame.2.2.2
  have hcap : h2'.Capacity ≠ 0 := by
    rw [hcapeq]
    exact Nat.pos_iff_ne_zero.mp li.params.1
  refine ⟨q, h2', hq, by rw [heq], hqcase, hle, hpath, hsame, by rw [← hcapeq]; exact li2,
    ?_, ?_⟩
  · intro hqj
    rw [heq, hqj, move_same he hf]
    cases h
    simp
  · intro fuel
    rw [rehashLoop_filled fuel he hf hset' hcap, hcapeq]

/-- If the table has an empty slot `e` that lies on the probe path of no key stored between
the walker and `e`, the repair walk stops after at most as many iterations as there are
slots from the walker to `e`. -/
theorem rehashLoop_bound_nonfull :
    ∀ (d : Nat) (h : HashMap α) (j e : Nat), LoopInv h j → FreeAt h.entries e →
      cdist h.entries.length j e = d →
      (∀ p k, KeyAt h.entries p k →
        cdist h.entries.length j p < cdist h.entries.length j e →
          ¬ (cdist h.entries.length (hashIndex h k) e
              < cdist h.entries.length (hashIndex h k) p)) →
      ∃ r, rehashLoop d h j = some r := by
  intro d
  induction d with
  | zero =>
    intro h j e li hfree hd _
    have hen : e < h.entries.length := by
      obtain ⟨e1, he1, _⟩ := hfree
      exact (List.getElem?_eq_some.mp he1).1
    have hj := li.walker
    have : e = j := by
      unfold cdist at hd
      split_ifs at hd <;> omega
    rw [this] at hfree
    exact ⟨_, rehashLoop_free 0 hfree⟩
  | succ d ih =>
    intro h j e li hfree hd hkeys
    have hen : e < h.entries.length := by
      obtain ⟨e1, he1, _⟩ := hfree
      exact (List.getElem?_eq_some.mp he1).1
    have hj := li.walker
    rcases filled_or_free hj with ⟨ej, hej, hfj⟩ | hfreej
    · obtain ⟨q, h2, hq, hent, hqcase, hle, _, hsame, li2, _, hloop⟩ := rehash_iter li hej hfj
      have hkj : KeyAt h.entries j ej.key := ⟨ej, hej, hfj, rfl⟩
      have hs := hashIndex_lt li.params ej.key
      have hej' : e ≠ j := by
        rintro rfl
        unfold cdist at hd
        split_ifs at hd <;> omega
      have hnot := hkeys j ej.key hkj (by
        unfold cdist at hd ⊢
        split_ifs at hd ⊢ <;> omega)
      have hqe : e ≠ q := by
        rintro rfl
        have hne : cdist h.entries.length (hashIndex h ej.key) e
            ≠ cdist h.entries.length (hashIndex h ej.key) j :=
          fun heq => hej' (cdist_inj hs hen hj heq)
        omega
      have hfree2 : FreeAt h2.entries e := by
        rw [hent]
        exact (freeAt_move hj).mpr ⟨hqe, Or.inr hfree⟩
      rw [hloop d]
      have hlen : h2.entries.length = h.entries.length := hsame.2.2.2
      apply ih h2 _ e li2 hfree2
      · rw [hlen, succ_mod_eq hj]
        unfold cdist at hd ⊢
        split_ifs at hd ⊢ <;> omega
      · intro p k hk hlt
        rw [hlen, hsame.hashIndex]
        rw [hlen, succ_mod_eq hj] at hlt
        rw [hent] at hk
        rcases (keyAt_move hq).mp hk with ⟨hpq, hkk⟩ | ⟨_, hpj, hk'⟩
        · rw [hpq, ← hkk]
          omega
        · apply hkeys p k hk'
          have hpn := hk'.filled.lt
          unfold cdist at hd hlt ⊢
          split_ifs at hd hlt ⊢ <;> omega
    · exact ⟨_, rehashLoop_free _ hfreej⟩

/-- If `x` lies on the path from `s` to `j` and, seen from `i`, the walk from `x` to `j`
wraps around while `z` comes no earlier than `x`, then `z` lies on the path from `s` to
`j`. -/
theorem cdist_through_wrap {n i s j x z : Nat} (hi : i < n) (hs : s < n) (hj : j < n)
    (hx : x < n) (hz : z < n) (h1 : cdist n i j < cdist n i x)
    (h2 : cdist n i x ≤ cdist n i z) (h3 : cdist n s x < cdist n s j) :
    cdist n s z < cdist n s j := by
  unfold cdist at h1 h2 h3 ⊢
  split_ifs at h1 h2 h3 ⊢ <;> omega

/-- If `g` lies on the path from `s` to `j` and, seen from `i`, `z` comes between `g` and
`j`, then `z` lies on the path from `s` to `j`. -/
theorem cdist_through {n i s j g z : Nat} (hi : i < n) (hs : s < n) (hj : j < n)
    (hz : z < n) (h1 : cdist n i g ≤ cdist n i z)
    (h2 : cdist n i z < cdist n i j) (h3 : cdist n s g < cdist n s j) :
    cdist n s z < cdist n s j := by
  unfold cdist at h1 h2 h3 ⊢
  split_ifs at h1 h2 h3 ⊢ <;> omega

/-- One iteration of the first lap. -/
theorem lap1_step {h : HashMap α} {i z d g j : Nat} (hi : i < h.entries.length)
    (hz : z < h.entries.length) (li : LoopInv h j) (hd : cdist h.entries.length i j = d)
    (l1 : Lap1 h i z d g) :
    ∃ h2 g', LoopInv h2 ((j + 1) % h.entries.length) ∧ SameHash h h2 ∧
      Lap1 h2 i z (d + 1) g' ∧
      ∀ fuel, rehashLoop (fuel + 1) h j = rehashLoop fuel h2 ((j + 1) % h.entries.length) := by
  have hj := li.walker
  have hgn : g < h.entries.length := by
    obtain ⟨e1, he1, _⟩ := l1.hole
    exact (List.getElem?_eq_some.mp he1).1
  have hjg : j ≠ g := by
    rintro rfl
    have := l1.gpos
    omega
  obtain ⟨e, he, hf⟩ := l1.only j hj hjg
  have hkj : KeyAt h.entries j e.key := ⟨e, he, hf, rfl⟩
  have hs := hashIndex_lt li.params e.key
  obtain ⟨q, h2, hq, hent, hqcase, hle, hpath, hsame, li2, hsameq, hloop⟩ := rehash_iter li he hf
  have hlen : h2.entries.length = h.entries.length := hsame.2.2.2
  -- the path of the key at the walker does not run through slots between walker and seam
  have hclean : ∀ x, x < h.entries.length →
      cdist h.entries.length (hashIndex h e.key) x
          < cdist h.entries.length (hashIndex h e.key) j →
        ¬ (d + 1 ≤ cdist h.entries.length i x ∧
          cdist h.entries.length i x ≤ cdist h.entries.length i z) := by
    rintro x hx hlt ⟨h1, h2⟩
    by_cases hjz : j = z
    · rw [← hjz, hd] at h2
      omega
    · exact l1.ahead j e.key hkj (by omega) hjz
        (cdist_through_wrap hi hs hj hx hz (by omega) h2 hlt)
  rcases hqcase with hqj | ⟨hqj, hqfree⟩
  · -- the entry stays in its slot
    have h2eq := hsameq hqj
    subst h2eq
    rw [hqj] at hpath
    have hgnot : ¬ cdist h2.entries.length (hashIndex h2 e.key) g
        < cdist h2.entries.length (hashIndex h2 e.key) j :=
      fun hlt => not_filled_of_free l1.hole (hpath g hgn hlt).2
    refine ⟨h2, g, li2, hsame, ⟨l1.hole, l1.only, by have := l1.gpos; omega, l1.gseam, ?_, ?_⟩,
      hloop⟩
    · intro p k hk hdp hpz
      exact l1.ahead p k hk (by omega) hpz
    · intro p k hk hdp x hx hlt
      by_cases hlt' : cdist h2.entries.length i p < d
      · obtain ⟨h1, h2'⟩ := l1.behind p k hk hlt' x hx hlt
        exact ⟨h1, fun hc => h2' ⟨by omega, hc.2⟩⟩
      · have hpj : p = j := cdist_inj hi hk.filled.lt hj (by omega)
        subst hpj
        have hkk := hk.unique hkj
        subst hkk
        refine ⟨?_, hclean x hx hlt⟩
        rintro rfl
        exact hgnot hlt
  · -- the entry moves into the empty slot, its own slot becomes the empty one
    have hqg : q = g := by
      by_contra hne
      exact not_filled_of_free hqfree (l1.only q hq hne)
    subst hqg
    have hltq : cdist h.entries.length (hashIndex h e.key) q
        < cdist h.entries.length (hashIndex h e.key) j := by
      have hne : cdist h.entries.length (hashIndex h e.key) q
          ≠ cdist h.entries.length (hashIndex h e.key) j :=
        fun heq => hqj (cdist_inj hs hq hj heq)
      omega
    have hdz : d ≤ cdist h.entries.length i z := by
      by_contra hgt
      have hjz : j ≠ z := by
        rintro rfl
        omega
      exact l1.ahead j e.key hkj (by omega) hjz
        (cdist_through hi hs hj hz l1.gseam (by omega) hltq)
    refine ⟨h2, j, li2, hsame, ⟨?_, ?_, ?_, ?_, ?_, ?_⟩, hloop⟩
    · rw [hent]
      exact (freeAt_move hj).mpr ⟨fun hjq => hqj hjq.symm, Or.inl rfl⟩
    · intro x hx hxj
      rw [hent, filledAt_move hq]
      by_cases hxq : x = q
      · exact Or.inl hxq
      · exact Or.inr ⟨hxq, hxj, l1.only x (by rwa [hlen] at hx) hxq⟩
    · rw [hlen, hd]
      omega
    · rw [hlen, hd]
      exact hdz
    · intro p k hk hdp hpz
      rw [hlen] at hdp ⊢
      rw [hsame.hashIndex]
      rw [hent] at hk
      rcases (keyAt_move hq).mp hk with ⟨hpq, _⟩ | ⟨_, _, hk'⟩
      · rw [hpq] at hdp
        have := l1.gpos
        omega
      · exact l1.ahead p k hk' (by omega) hpz
    · intro p k hk hdp x hx hlt
      rw [hlen] at hdp hx hlt ⊢
      rw [hsame.hashIndex] at hlt
      rw [hent] at hk
      rcases (keyAt_move hq).mp hk with ⟨hpq, hkk⟩ | ⟨_, hpj, hk'⟩
      · subst hpq hkk
        have hxj : cdist h.entries.length (hashIndex h e.key) x
            < cdist h.entries.length (hashIndex h e.key) j := by omega
        refine ⟨?_, hclean x hx hxj⟩
        rintro rfl
        omega
      · have hpd : cdist h.entries.length i p < d := by
          have hne : cdist h.entries.length i p ≠ cdist h.entries.length i j :=
            fun heq => hpj (cdist_inj hi hk'.filled.lt hj heq)
          omega
        obtain ⟨_, h2'⟩ := l1.behind p k hk' hpd x hx hlt
        refine ⟨?_, fun hc => h2' ⟨by omega, hc.2⟩⟩
        rintro rfl
        exact h2' ⟨by omega, by rw [hd]; exact hdz⟩

/-- At the end of the first lap the table is well formed. -/
theorem Lap1.wellFormed {h : HashMap α} {i z g j : Nat} (hi : i < h.entries.length)
    (l1 : Lap1 h i z h.entries.length g) (li : LoopInv h j) : WF h := by
  refine ⟨li.params, li.size_eq, li.nodup, ?_⟩
  intro p k hk x hx hlt
  have hp := hk.filled.lt
  exact l1.only x hx (l1.behind p k hk (cdist_lt hi hp) x hx hlt).1

/-- On a table that was full before the deletion of slot `i`, the rest of the first lap and
the second lap together take at most `(n - d) + cdist i z` iterations. -/
theorem lap1_bound :
    ∀ (m : Nat) (h : HashMap α) (i z d g j : Nat), i < h.entries.length →
      z < h.entries.length → LoopInv h j → cdist h.entries.length i j = d →
      Lap1 h i z d g → h.entries.length - d = m →
      ∃ r, rehashLoop (m + cdist h.entries.length i z) h j = some r := by
  intro m
  induction m with
  | zero =>
    intro h i z d g j hi _ li hd _ hm
    have := cdist_lt hi li.walker
    omega
  | succ m ih =>
    intro h i z d g j hi hz li hd l1 hm
    have hj := li.walker
    obtain ⟨h2, g', li2, hsame, l1', hloop⟩ := lap1_step hi hz li hd l1
    have hlen : h2.entries.length = h.entries.length := hsame.2.2.2
    have hfuel : m + 1 + cdist h.entries.length i z = (m + cdist h.entries.length i z) + 1 := by
      omega
    rw [hfuel, hloop]
    by_cases hlast : m = 0
    · subst hlast
      have hdn : d + 1 = h2.entries.length := by omega
      rw [hdn] at l1'
      have hi2 : i < h2.entries.length := by rwa [hlen]
      have w2 := l1'.wellFormed hi2 li2
      have hwalker : (j + 1) % h.entries.length = i := by
        rw [succ_mod_eq hj]
        unfold cdist at hd
        split_ifs at hd ⊢ <;> omega
      rw [hwalker]
      have hrun := rehashLoop_of_WF _ h2 i g' w2 hi2 l1'.hole rfl
      have hle : cdist h2.entries.length i g' ≤ 0 + cdist h.entries.length i z := by
        have := l1'.gseam
        rw [hlen] at this ⊢
        omega
      exact ⟨_, rehashLoop_mono _ _ _ _ hrun _ hle⟩
    · have hd' : cdist h2.entries.length i ((j + 1) % h.entries.length) = d + 1 := by
        rw [hlen, succ_mod_eq hj]
        unfold cdist at hd ⊢
        split_ifs at hd ⊢ <;> omega
      have := ih h2 i z (d + 1) g' _ (by rwa [hlen]) (by rwa [hlen]) li2 hd' l1'
        (by rw [hlen]; omega)
      rwa [hlen] at this

theorem rehashLoop_bound_of_full {h : HashMap α} (w : WF h) (hseam : Seam h)
    (hfull : ∀ x, x < h.entries.length → FilledAt h.entries x) {p : Nat} {k : Key}
    (hk : KeyAt h.entries p k) :
    ∃ r, rehashLoop (2 * (h.entries.length - 1)) (h.clearSlot p)
      ((p + 1) % h.entries.length) = some r := by
  have hp := hk.filled.lt
  have li := LoopInv_of_clear w hk
  have hlen : (h.clearSlot p).entries.length = h.entries.length := by
    simp [HashMap.clearSlot]
  have hsame : SameHash h (h.clearSlot p) := ⟨rfl, rfl, rfl, hlen⟩
  have hfreep : FreeAt (h.clearSlot p).entries p := freeAt_set.mpr (Or.inl ⟨rfl, hp, rfl⟩)
  by_cases hn : h.entries.length = 1
  · have hwalker : (p + 1) % h.entries.length = p := by
      rw [hn]
      omega
    rw [hwalker]
    exact ⟨_, rehashLoop_free _ hfreep⟩
  · obtain ⟨z, hz, hzseam⟩ := hseam
    have hd : cdist h.entries.length p ((p + 1) % h.entries.length) = 1 := by
      rw [succ_mod_eq hp]
      unfold cdist
      split_ifs <;> omega
    have l1 : Lap1 (h.clearSlot p) p z 1 p := by
      refine ⟨hfreep, ?_, ?_, ?_, ?_, ?_⟩
      · intro x hx hxp
        exact filledAt_set.mpr (Or.inr ⟨hxp, hfull x (by rwa [hlen] at hx)⟩)
      · rw [hlen]
        simp [cdist]
      · rw [hlen]
        simp [cdist]
      · intro q k' hk' _ hqz
        rcases keyAt_set.mp hk' with ⟨_, _, hbad, _⟩ | ⟨_, hk''⟩
        · simp [emptyEntry] at hbad
        · rw [hlen, hsame.hashIndex]
          exact hzseam q k' hk'' hqz
      · intro q k' hk' hlt
        rcases keyAt_set.mp hk' with ⟨_, _, hbad, _⟩ | ⟨hqp, hk''⟩
        · simp [emptyEntry] at hbad
        · exfalso
          have hq := hk''.filled.lt
          rw [hlen] at hlt
          unfold cdist at hlt
          split_ifs at hlt <;> omega
    obtain ⟨r, hr⟩ := lap1_bound (h.entries.length - 1) (h.clearSlot p) p z 1 p _
      (by rwa [hlen]) (by rwa [hlen]) li (by rw [hlen]; exact hd) l1 (by rw [hlen])
    rw [hlen] at hr
    refine ⟨r, rehashLoop_mono _ _ _ _ hr _ ?_⟩
    have := cdist_lt hp hz
    omega

theorem rehashLoop_bound_of_free {h : HashMap α} (w : WF h) {e : Nat}
    (hfree : FreeAt h.entries e) {p : Nat} {k : Key} (hk : KeyAt h.entries p k) :
    ∃ r, rehashLoop (h.entries.length - 2) (h.clearSlot p)
      ((p + 1) % h.entries.length) = some r := by
  have hp := hk.filled.lt
  have hen : e < h.entries.length := by
    obtain ⟨e1, he1, _⟩ := hfree
    exact (List.getElem?_eq_some.mp he1).1
  have hep : e ≠ p := by
    rintro rfl
    exact not_filled_of_free hfree hk.filled
  have li := LoopInv_of_clear w hk
  have hlen : (h.clearSlot p).entries.length = h.entries.length := by
    simp [HashMap.clearSlot]
  have hsame : SameHash h (h.clearSlot p) := ⟨rfl, rfl, rfl, hlen⟩
  have hfree' : FreeAt (h.clearSlot p).entries e := freeAt_set.mpr (Or.inr ⟨hep, hfree⟩)
  obtain ⟨r, hr⟩ := rehashLoop_bound_nonfull _ (h.clearSlot p) _ e li hfree' rfl (by
    intro q k' hk' _
    rcases keyAt_set.mp hk' with ⟨_, _, hbad, _⟩ | ⟨_, hk''⟩
    · simp [emptyEntry] at hbad
    · intro hlt
      rw [hlen, hsame.hashIndex] at hlt
      exact not_filled_of_free hfree (w.path q k' hk'' e hen hlt))
  refine ⟨r, rehashLoop_mono _ _ _ _ hr _ ?_⟩
  rw [hlen, succ_mod_eq hp]
  unfold cdist
  split_ifs <;> omega

/-- Claim C13, refuted as stated: the reachable table `table3` has capacity 3 and stores
`"a"`; three iterations of the repair loop of `Delete("a")` do not suffice (the loop wants to
execute a fourth), and with four iterations `Delete("a")` returns. -/
theorem repair_walk_exceeds_capacity :
    Reachable table3 ∧ Holds table3.entries 1 keyA (some 3) ∧ table3.Capacity = 3 ∧
      table3.Delete table3.Capacity keyA = none ∧
      table3.Delete 4 keyA = some (.ok
        ({ table3 with
            entries := [emptyEntry, ⟨true, keyD, some 4⟩, ⟨true, keyG, some 5⟩], size := 2 },
          some 3)) := by
  refine ⟨table3_reachable, rfl, rfl, ?_, ?_⟩
  · decide!
  · decide!

/-- Claim C13, amended. In a reachable table, for a stored key `k`, the repair loop of
`Delete(k)` executes at most `2 * (Capacity - 1)` iterations; and if some slot was empty
before the deletion it executes at most `Capacity - 2` iterations, fewer than `Capacity`. -/
theorem repair_walk_iterations {h : HashMap α} (hr : Reachable h) {p : Nat} {k : Key}
    {v : Option α} (hh : Holds h.entries p k v) :
    ∃ h', h.Delete (2 * (h.Capacity - 1)) k = some (.ok (h', v)) ∧
      ((∃ x, FreeAt h.entries x) → h.Delete (h.Capacity - 2) k = some (.ok (h', v))) := by
  have w := hr.wf
  obtain ⟨_, h', _, huniq, _⟩ := Delete_found w hh
  have hfuel : ∀ fuel, (∃ r, rehashLoop fuel (h.clearSlot p) ((p + 1) % h.entries.length)
      = some r) → h.Delete fuel k = some (.ok (h', v)) := by
    rintro fuel ⟨r, hr'⟩
    have hdel : h.Delete fuel k = some (r.map (fun h2 => (h2, v))) := by
      rw [Delete_eq_walk w hh]
      have : rehashLoop fuel { h with entries := h.entries.set p emptyEntry, size := h.size - 1 }
          ((p + 1) % h.entries.length) = some r := hr'
      rw [this]
      rfl
    rw [hdel, huniq fuel _ hdel]
  have hbound_nonfull : (∃ x, FreeAt h.entries x) →
      ∃ r, rehashLoop (h.entries.length - 2) (h.clearSlot p) ((p + 1) % h.entries.length)
        = some r := by
    rintro ⟨x, hx⟩
    exact rehashLoop_bound_of_free w hx hh.keyAt
  refine ⟨h', hfuel _ ?_, fun hfree => hfuel _ (hbound_nonfull hfree)⟩
  by_cases hfull : ∀ x, x < h.entries.length → FilledAt h.entries x
  · exact rehashLoop_bound_of_full w hr.seam hfull hh.keyAt
  · have hex : ∃ x, FreeAt h.entries x := by
      by_contra hno
      apply hfull
      intro x hx
      rcases filled_or_free hx with hf | hf
      · exact hf
      · exact absurd ⟨x, hf⟩ hno
    obtain ⟨r, hr'⟩ := hbound_nonfull hex
    exact ⟨r, rehashLoop_mono _ _ _ _ hr' _ (by unfold HashMap.Capacity; omega)⟩

theorem repair_walk_iterations_witness :
    ∃ h', table3.Delete (2 * (table3.Capacity - 1)) keyA = some (.ok (h', some 3)) ∧
      ((∃ x, FreeAt table3.entries x) →
        table3.Delete (table3.Capacity - 2) keyA = some (.ok (h', some 3))) :=
  repair_walk_iterations table3_reachable (p := 1) rfl

end GoHashmap
